import Mathlib

/-!
Verification of the incremental file-driven build scheduler
(`pylib/producer/scheduler.py`).

The development shallowly embeds the scheduler's data model and operations:

* the comma/backslash escaping used by the fileset query
  (`GROUP_CONCAT(REPLACE(REPLACE(filename,'\','\\'), ',', '\,'), ',')`)
  and its parser `parse_comma_escape`;
* the file-system staleness oracle (`all_files_exist`,
  `get_aggregated_modified_time` and its `min`/`max` wrappers, and the
  skip decision of `process_files`);
* the scheduler's creator indices (`creator_list`, `output_file_maps`,
  `input_file_maps`) and their mutations (`delete_creator`,
  `delete_creators_with_input_files`, the registration step of
  `build_new_creators`);
* the relational match store (one table of `(filename, is_updated,
  group columns)` rows per producer field) with `insert_new_file`,
  `remove_file_from_database`, `mark_all_files_old`, and the join
  performed by `query_filesets`;
* the composed operations `build_new_creators`, `process_files`,
  `add_or_update_files` and `delete_files`.

Python dictionaries and sets are modelled as `Finmap`/`Finset`
(lookup/insert/erase), machine floats (mtimes) as rationals — the code
only ever compares them, never does arithmetic — and the in-memory
SQLite tables as lists of rows.  Loops that mutate state are explicit
folds; a Python exception is an error value returned together with the
partially mutated state, since the scheduler mutates in place and the
exception propagates out of the mutating method.
-/

/-! ### Comma escaping

`new_filesets_querystring` aggregates the filenames of a list field with
`GROUP_CONCAT(REPLACE(REPLACE(t.filename, '\','\\'), ',', '\,'), ',')`:
every backslash is doubled, then every (original) comma is prefixed with
a backslash, and the escaped names are joined with `,`.
`parse_comma_escape` (scheduler.py lines 862-875) walks the characters,
splitting on a comma not preceded by a backslash and dropping a
backslash not preceded by a backslash. -/

/-- One `REPLACE(s, pat, rep)` step of the SQL expression, for a
single-character pattern. -/
def replaceChar (pat : Char) (rep : List Char) : List Char → List Char
  | [] => []
  | c :: cs => (if c = pat then rep else [c]) ++ replaceChar pat rep cs

/-- `REPLACE(REPLACE(f, '\','\\'), ',', '\,')`: the escaping the query
applies to one filename. -/
def escapeChars (f : List Char) : List Char :=
  replaceChar ',' ['\\', ','] (replaceChar '\\' ['\\', '\\'] f)

/-- `GROUP_CONCAT(…, ',')`: escaped names joined with a comma. -/
def concatEscaped : List (List Char) → List Char
  | [] => []
  | [f] => escapeChars f
  | f :: f' :: fs => escapeChars f ++ ',' :: concatEscaped (f' :: fs)

/-- The character loop of `parse_comma_escape`: `cur` is the string
being accumulated (`output_strings[-1]`), `last` the previous character
(`last_character`, `none` standing for the initial `""`). -/
def parseCEAux : List Char → List Char → Option Char → List (List Char)
  | [], cur, _ => [cur]
  | c :: cs, cur, last =>
    if c = ',' ∧ last ≠ some '\\' then cur :: parseCEAux cs [] (some c)
    else if c = '\\' ∧ last ≠ some '\\' then parseCEAux cs cur (some c)
    else parseCEAux cs (cur ++ [c]) (some c)

/-- `parse_comma_escape` (scheduler.py lines 862-875). -/
def parse_comma_escape (input_string : String) : List String :=
  (parseCEAux input_string.toList [] none).map List.asString

/-- The comma-escaped concatenation produced by the query's escaping,
on strings. -/
def concat_with_escape (names : List String) : String :=
  (concatEscaped (names.map String.toList)).asString

/-- A filename is `safeName` when no backslash in it is immediately
followed by another backslash or by a comma.  For such names the
parser's failure to reset `last_character` after consuming an escape is
unobservable. -/
def safeName : List Char → Bool
  | [] => true
  | [_] => true
  | c :: c' :: cs =>
    (if c = '\\' ∧ (c' = '\\' ∨ c' = ',') then false else true) && safeName (c' :: cs)

/-- The value of `last_character` after the characters of an escaped
name `f` have been consumed: the last character of `f`, or the incoming
value when `f` is empty. -/
def lastCharAfter (f : List Char) (last : Option Char) : Option Char :=
  match f.getLast? with
  | none => last
  | some c => some c

/-- Entry states from which the parser consumes one escaped name
correctly: either the previous character was not a backslash, or the
name starts with an ordinary character (neither backslash nor comma). -/
def entryOK (f : List Char) (last : Option Char) : Prop :=
  last ≠ some '\\' ∨ (∃ c cs, f = c :: cs ∧ c ≠ '\\' ∧ c ≠ ',')


/-! ### File system and modification times

The staleness oracle reads the file system through `os.path.exists`,
`os.path.isdir`, `os.listdir` and `os.path.getmtime`.  We model a disk
as a partial map from path strings to entries; a directory entry lists
its children's names, joined to the parent path with `/` as
`os.path.join` does.  Modification times are floats in the source; the
scheduler only ever compares them (`min`, `max`, `>`), so they are
modelled as rationals, with the missing-file sentinel
`sys.float_info.max` as the exact value of the largest double.

`get_aggregated_modified_time` iterates a Python list that it extends
while iterating (a worklist), so the traversal need not terminate on an
arbitrary disk; the embedding takes explicit fuel and returns `none`
when the fuel runs out.  On a real (finite, acyclic) file system some
sufficient fuel always exists. -/

inductive FSEntry
  | file (mtime : Rat)
  | dir (children : List String)
deriving DecidableEq

/-- A disk: partial map from paths to entries. -/
def Disk := String → Option FSEntry

/-- `os.path.exists`. -/
def osPathExists (disk : Disk) (p : String) : Bool :=
  (disk p).isSome

/-- `all_files_exist` (scheduler.py lines 769-773): `False` as soon as
one file is missing, `True` for the empty list. -/
def all_files_exist (disk : Disk) : List String → Bool
  | [] => true
  | f :: fs => if osPathExists disk f then all_files_exist disk fs else false

/-- `os.path.join` for a directory child. -/
def joinPath (p sub : String) : String := p ++ "/" ++ sub

/-- `sys.float_info.max`, the default used for missing input files:
the largest finite IEEE-754 double, `(2 - 2^-52) * 2^1023`. -/
def floatInfoMax : Rat := ((2 ^ 1024 - 2 ^ 971 : Int) : Rat)

/-- The worklist loop of `get_aggregated_modified_time` (lines 824-851):
a missing path contributes `default` to `time_list`, a file contributes
its mtime, and a directory is replaced by its children (appended to the
end of the iterated list, hence expanded transitively). -/
def collectTimes (disk : Disk) (default : Rat) : Nat → List String → Option (List Rat)
  | _, [] => some []
  | 0, _ :: _ => none
  | fuel + 1, p :: ps =>
    match disk p with
    | none => (collectTimes disk default fuel ps).map (fun ts => default :: ts)
    | some (.file t) => (collectTimes disk default fuel ps).map (fun ts => t :: ts)
    | some (.dir cs) => collectTimes disk default fuel (ps ++ cs.map (joinPath p))

/-- Python's builtin `min` over a nonempty list (the empty case is
unreachable: the caller guards with `len(time_list) == 0`). -/
def pyMin : List Rat → Rat
  | [] => 0
  | t :: ts => ts.foldl min t

/-- Python's builtin `max` over a nonempty list. -/
def pyMax : List Rat → Rat
  | [] => 0
  | t :: ts => ts.foldl max t

/-- `get_aggregated_modified_time` (lines 824-851): collect the times,
fall back to `default` when none were collected, otherwise aggregate. -/
def get_aggregated_modified_time (disk : Disk) (aggregator : List Rat → Rat)
    (default : Rat) (fuel : Nat) (paths : List String) : Option Rat :=
  (collectTimes disk default fuel paths).map
    (fun time_list => if time_list = [] then default else aggregator time_list)

/-- `get_newest_modified_time` (lines 795-800): aggregator `max`,
default `sys.float_info.max`. -/
def get_newest_modified_time (disk : Disk) (fuel : Nat) (paths : List String) : Option Rat :=
  get_aggregated_modified_time disk pyMax floatInfoMax fuel paths

/-- `get_oldest_modified_time` (lines 809-814): aggregator `min`,
default `0`. -/
def get_oldest_modified_time (disk : Disk) (fuel : Nat) (paths : List String) : Option Rat :=
  get_aggregated_modified_time disk pyMin 0 fuel paths

/-- The run/skip decision of `process_files` (lines 262-269): if all
output files exist and `oldest_output > newest_input` the creator is
skipped; otherwise it runs.  `some true` means the creator's function is
executed; `none` means the mtime traversal ran out of fuel. -/
def must_run (disk : Disk) (fuel : Nat) (outs ins : List String) : Option Bool :=
  if all_files_exist disk outs = true then
    match get_oldest_modified_time disk fuel outs,
        get_newest_modified_time disk fuel ins with
    | some oldest, some newest => some (if oldest > newest then false else true)
    | _, _ => none
  else some true

/-! ### Creator indices

`CreatorIndexType = Tuple[ProducerIndexType, str]` where the string is
`get_hashable_matchgroups(groups) = json.dumps(groups, sort_keys=True)`.
We model the canonical serialization by the key-sorted association list
itself; `json.dumps` with sorted keys is injective on string-valued
dicts, so the two keys identify the same creators.

`Creator` (from `creator.py`, not part of the sources) is modelled from
the spec, §3: it holds the resolved input paths and output paths, each
flattenable into a list of files (exposed as `flat_input_paths()` /
`flat_output_paths()`; we store the flattened lists directly), plus
`categories` and `function`, neither of which affects the index logic
(the build action is recovered from the producer when a creator runs).
The spec's producer interface (§2) speaks of input/output *path-sets*,
so the flattened lists are taken duplicate-free where an invariant
needs it. -/

/-- The producer index paired with the canonicalized match groups:
`(producer_index, get_hashable_matchgroups(input_groups))`. -/
abbrev CreatorKey := Nat × List (String × String)

/-- `get_hashable_matchgroups` (scheduler.py lines 31-32): the
canonical, key-sorted form of a match-group dict. -/
def get_hashable_matchgroups (groups : List (String × String)) : List (String × String) :=
  List.insertionSort (fun a b => a.1.toList ≤ b.1.toList) groups

/-- A creator: resolved flat input and output paths (modelled from the
spec, §3). -/
structure Creator where
  flat_input_paths : List String
  flat_output_paths : List String
deriving DecidableEq

/-- The three indices owned by the scheduler: `creator_list`,
`output_file_maps` and `input_file_maps`.  A Python `set` of creator
indexes is modelled as a duplicate-free list in insertion order. -/
structure SchedState where
  creator_list : Finmap (fun _ : CreatorKey => Creator)
  output_file_maps : Finmap (fun _ : String => CreatorKey)
  input_file_maps : Finmap (fun _ : String => List CreatorKey)
deriving DecidableEq

/-- The scheduler's possible exceptions: the Duplicate-Output
`ValueError` of `build_new_creators` (carrying both creators), the
sanity-check `ValueError` of `delete_creator`, and Python `KeyError`s
from missing dict keys / `set.remove`. -/
inductive SchedErr
  | dupOutput (existing new_creator : Creator)
  | sanity
  | keyError
  | integrityError
  | sqlError
  | fuelOut
  | unmodeled
deriving DecidableEq

/-- The empty state built by `Scheduler.__init__` before the initial
`add_or_update_files` call. -/
def emptySched : SchedState :=
  { creator_list := ∅, output_file_maps := ∅, input_file_maps := ∅ }

/-- The first loop of `delete_creator` (lines 120-128): sanity-check and
remove each output file of the creator being deleted.  An exception
leaves the partially mutated state behind. -/
def deleteOutputsLoop (idx : CreatorKey) : SchedState → List String → SchedState × Option SchedErr
  | st, [] => (st, none)
  | st, f :: fs =>
    match st.output_file_maps.lookup f with
    | none => (st, some .keyError)
    | some j =>
      if j = idx then
        deleteOutputsLoop idx { st with output_file_maps := st.output_file_maps.erase f } fs
      else (st, some .sanity)

/-- The second loop of `delete_creator` (lines 131-137): drop the
creator from each input file's set, deleting the set once empty.
`set.remove` raises `KeyError` when the element is absent. -/
def removeInputsLoop (idx : CreatorKey) : SchedState → List String → SchedState × Option SchedErr
  | st, [] => (st, none)
  | st, f :: fs =>
    match st.input_file_maps.lookup f with
    | none => (st, some .keyError)
    | some s =>
      if idx ∈ s then
        removeInputsLoop idx
          { st with input_file_maps :=
              if s.erase idx = [] then st.input_file_maps.erase f
              else st.input_file_maps.insert f (s.erase idx) } fs
      else (st, some .keyError)

/-- `delete_creator` (lines 118-141). -/
def delete_creator (st : SchedState) (idx : CreatorKey) : SchedState × Option SchedErr :=
  match st.creator_list.lookup idx with
  | none => (st, some .keyError)
  | some creator =>
    let r1 := deleteOutputsLoop idx st creator.flat_output_paths
    match r1.2 with
    | some e => (r1.1, some e)
    | none =>
      let r2 := removeInputsLoop idx r1.1 creator.flat_input_paths
      match r2.2 with
      | some e => (r2.1, some e)
      | none => ({ r2.1 with creator_list := r2.1.creator_list.erase idx }, none)

/-- The gathering loop of `delete_creators_with_input_files`
(lines 102-107): the set of creator indexes consuming any of the
files, in insertion order. -/
def creatorsToDelete (st : SchedState) (files : List String) : List CreatorKey :=
  files.foldl (fun acc f =>
    match st.input_file_maps.lookup f with
    | none => acc
    | some s => s.foldl (fun a k => if k ∈ a then a else a ++ [k]) acc) []

/-- Fold a state-and-error step over a list, stopping at the first
error: a Python exception aborts the enclosing loop, keeping the
mutations made so far. -/
def foldE {α β : Type} (f : β → α → β × Option SchedErr) : β → List α → β × Option SchedErr
  | b, [] => (b, none)
  | b, a :: as =>
    match f b a with
    | (b1, some e) => (b1, some e)
    | (b1, none) => foldE f b1 as

/-- `delete_creators_with_input_files` (lines 101-116): delete each
gathered creator in turn. -/
def delete_creators_with_input_files (st : SchedState) (files : List String) :
    SchedState × Option SchedErr :=
  foldE delete_creator st (creatorsToDelete st files)

/-- The duplicate-output check of `build_new_creators` (lines 207-212):
the first output file already present in `output_file_maps` raises the
Duplicate-Output `ValueError`, whose message interpolates the existing
creator (`creator_list[output_file_maps[file]]`) and the new one. -/
def dupCheck (st : SchedState) (c : Creator) : List String → Option SchedErr
  | [] => none
  | f :: fs =>
    match st.output_file_maps.lookup f with
    | none => dupCheck st c fs
    | some j =>
      match st.creator_list.lookup j with
      | some existing => some (.dupOutput existing c)
      | none => some .keyError

/-- The input-index loop of `build_new_creators` (lines 220-224). -/
def addInputsLoop (idx : CreatorKey) :
    Finmap (fun _ : String => List CreatorKey) → List String →
      Finmap (fun _ : String => List CreatorKey)
  | m, [] => m
  | m, f :: fs =>
    addInputsLoop idx
      (m.insert f
        (match m.lookup f with
         | none => [idx]
         | some s => if idx ∈ s then s else s ++ [idx])) fs

/-- The output-index loop of `build_new_creators` (lines 226-227). -/
def addOutputsLoop (idx : CreatorKey) :
    Finmap (fun _ : String => CreatorKey) → List String →
      Finmap (fun _ : String => CreatorKey)
  | m, [] => m
  | m, f :: fs => addOutputsLoop idx (m.insert f idx) fs

/-- One registration step of `build_new_creators` (lines 197-227): if a
creator with the same identity exists it is deleted first; then the
duplicate-output check runs (raising, with the state so far, on a hit);
then the creator is stored and indexed. -/
def registerStep (st : SchedState) (idx : CreatorKey) (c : Creator) :
    SchedState × Option SchedErr :=
  let r1 := if (st.creator_list.lookup idx).isSome then delete_creator st idx else (st, none)
  match r1.2 with
  | some e => (r1.1, some e)
  | none =>
    match dupCheck r1.1 c c.flat_output_paths with
    | some e => (r1.1, some e)
    | none =>
      ({ creator_list := r1.1.creator_list.insert idx c,
         output_file_maps := addOutputsLoop idx r1.1.output_file_maps c.flat_output_paths,
         input_file_maps := addInputsLoop idx r1.1.input_file_maps c.flat_input_paths },
       none)

/-- Consistency of the three indices, plus duplicate-freeness of the
stored path lists (the spec's producer interface emits path-sets).
`out_complete`/`out_sound` make `output_file_maps` exactly the graph of
output-file ownership — in particular distinct creators have disjoint
output sets — and `in_complete`/`in_sound` do the same for
`input_file_maps`. -/
structure SchedInv (st : SchedState) : Prop where
  out_complete : ∀ k c, st.creator_list.lookup k = some c →
    ∀ f ∈ c.flat_output_paths, st.output_file_maps.lookup f = some k
  out_sound : ∀ f k, st.output_file_maps.lookup f = some k →
    ∃ c, st.creator_list.lookup k = some c ∧ f ∈ c.flat_output_paths
  in_complete : ∀ k c, st.creator_list.lookup k = some c →
    ∀ f ∈ c.flat_input_paths, ∃ s, st.input_file_maps.lookup f = some s ∧ k ∈ s
  in_sound : ∀ f s, st.input_file_maps.lookup f = some s →
    ∀ k ∈ s, ∃ c, st.creator_list.lookup k = some c ∧ f ∈ c.flat_input_paths
  out_nodup : ∀ k c, st.creator_list.lookup k = some c → c.flat_output_paths.Nodup
  in_nodup : ∀ k c, st.creator_list.lookup k = some c → c.flat_input_paths.Nodup
  in_sets_nodup : ∀ f s, st.input_file_maps.lookup f = some s → s.Nodup

/-! ### The match store

One SQLite table per `(producer, non-absent field)` holds rows
`(filename UNIQUE, is_updated, one column per capture group)`; we model
a table as a list of rows in insertion order and the database as a
finite map keyed by `(producer_index, field_name)` (field ids are a
bijective renaming of field names, so the names serve as ids).  A row's
group columns are the association list produced by
`match.groupdict()`. -/

/-- A row of a field table. -/
structure Row where
  filename : String
  is_updated : Nat
  groups : List (String × String)
deriving DecidableEq

/-- A compiled regex, modelled extensionally: `re.match(pattern, path)`
either fails or yields `match.groupdict()`.  (Optional groups that
match nothing — `None` values in the group dict — are outside the
model.) -/
def Matcher := String → Option (List (String × String))

/-- The declared shape of one producer field: the four values an
`input_path_patterns_dict` entry can take (`""`, `[]`, a single pattern
or a list pattern); non-absent shapes carry the compiled regex from
`regex_field_patterns` and its named groups (`get_match_groups`). -/
inductive FieldKind
  | absentStr
  | absentList
  | single (re : Matcher) (groups : List String)
  | listPat (re : Matcher) (groups : List String)

/-- A resolved input value (`new_element` entry): string fields resolve
to a string, list fields to a list of filenames. -/
inductive FieldVal
  | str (s : String)
  | strList (l : List String)
deriving DecidableEq

/-- A producer, modelled from the spec (§3): the ordered field
declarations (`input_path_patterns_dict`, with `regex_field_patterns`
and `get_match_groups` folded into each field's kind), the `paths` hook
(returning the resolved input paths and output paths, already
flattened, cf. `flat_input_paths`/`flat_output_paths`), and the build
action `function`, which rewrites the disk (§6: the creator's function
closes over the resolved inputs and outputs).  `categories` is only
printed and does not affect scheduling, so it is not modelled. -/
structure Producer where
  fields : List (String × FieldKind)
  pathsFn : List (String × FieldVal) → List (String × String) → List String × List String
  action : List String → List String → Disk → Disk

/-- Whether a field participates in tables and the join (pattern not
`""` and not `[]`). -/
def FieldKind.isActive : FieldKind → Bool
  | .absentStr => false
  | .absentList => false
  | .single _ _ => true
  | .listPat _ _ => true

/-- The compiled regex of a non-absent field. -/
def FieldKind.matcher? : FieldKind → Option Matcher
  | .single re _ => some re
  | .listPat re _ => some re
  | _ => none

/-- `get_match_groups` for one field. -/
def FieldKind.groupsOf : FieldKind → List String
  | .single _ gs => gs
  | .listPat _ gs => gs
  | _ => []

/-- The non-absent fields, in declaration order. -/
def activeFields (p : Producer) : List (String × FieldKind) :=
  p.fields.filter (fun fk => fk.2.isActive)

/-- `regex_field_patterns`: field name and compiled regex for each
non-absent field. -/
def regex_field_patterns (p : Producer) : List (String × Matcher) :=
  p.fields.filterMap (fun fk => (fk.2.matcher?).map (fun m => (fk.1, m)))

/-- `get_all_match_groups`: every group name, first occurrence first. -/
def get_all_match_groups (p : Producer) : List String :=
  ((p.fields.map (fun fk => fk.2.groupsOf)).flatten).dedup

/-- The in-memory database: one table per `(producer_index, field)`. -/
def Store := Finmap (fun _ : Nat × String => List Row)

instance : DecidableEq Store :=
  inferInstanceAs (DecidableEq (Finmap (fun _ : Nat × String => List Row)))

/-- `init_table_query`/`init_producer_cache`: an empty table per
producer field. -/
def initTablesFor (i : Nat) (p : Producer) (st : Store) : Store :=
  (regex_field_patterns p).foldl (fun s fm => s.insert (i, fm.1) []) st

/-- `init_producer_cache` (lines 414-422). -/
def init_producer_cache (ps : List Producer) : Store :=
  ps.enum.foldl (fun s ip => initTablesFor ip.1 ip.2 s) (∅ : Finmap _)

/-- `insert_new_file` (lines 471-515): INSERT a row
`(filename, is_updated = 1, groups)`.  The table's UNIQUE constraint on
`filename` makes a duplicate insert an `IntegrityError` (the statement
has no ON CONFLICT clause); a missing table is an operational error. -/
def insert_new_file (store : Store) (i : Nat) (field filename : String)
    (groups : List (String × String)) : Store × Option SchedErr :=
  match store.lookup (i, field) with
  | none => (store, some .sqlError)
  | some t =>
    if t.any (fun r => r.filename == filename) then (store, some .integrityError)
    else (store.insert (i, field) (t ++ [⟨filename, 1, groups⟩]), none)

/-- `remove_file_from_database` (lines 517-549): DELETE the rows with
this filename. -/
def remove_file_from_database (store : Store) (i : Nat) (field filename : String) :
    Store × Option SchedErr :=
  match store.lookup (i, field) with
  | none => (store, some .sqlError)
  | some t => (store.insert (i, field) (t.filter (fun r => r.filename != filename)), none)

/-- `mark_all_files_old` (lines 732-758): set `is_updated = 0` on every
row of every non-absent field's table (the WHERE `is_updated != 0`
clause only avoids no-op writes). -/
def mark_all_files_old (ps : List Producer) (store : Store) : Store :=
  ps.enum.foldl (fun s ip =>
    (regex_field_patterns ip.2).foldl (fun s2 fm =>
      match s2.lookup (ip.1, fm.1) with
      | none => s2
      | some t => s2.insert (ip.1, fm.1) (t.map (fun r => { r with is_updated := 0 }))) s)
    store

/-! ### The fileset join

`new_filesets_querystring` (lines 613-729) SELECTs from the cartesian
product of the non-absent fields' tables, constrained by equality of
every shared capture group with the first table carrying it, GROUPs BY
the single fields' filenames and the group columns, aggregates each
list field with the escaped `GROUP_CONCAT`, and SUMs the `is_updated`
flags.  `query_filesets` (lines 559-610) then builds one
`resolved_input_data` per result row and keeps the rows with
`is_updated > 0`.  SQL leaves the product enumeration, `GROUP_CONCAT`
and `GROUP BY` output orders unspecified; the model fixes them to the
table/first-occurrence orders. -/

/-- The cartesian product `FROM t1, t2, …`: one row pick per table. -/
def productRows : List (List Row) → List (List Row)
  | [] => [[]]
  | t :: ts => t.flatMap (fun r => (productRows ts).map (fun tup => r :: tup))

/-- All capture groups of the active fields, first occurrence first
(the iteration order of `field_groups`). -/
def allGroups (af : List (String × FieldKind)) : List String :=
  ((af.map (fun fk => fk.2.groupsOf)).flatten).dedup

/-- The values a tuple offers for group `g`, one per active field whose
regex names `g`, in field order. -/
def groupValsIn (af : List (String × FieldKind)) (t : List Row) (g : String) :
    List (Option String) :=
  (af.zip t).filterMap (fun ft =>
    if g ∈ ft.1.2.groupsOf then some (List.lookup g ft.2.groups) else none)

/-- `first_table.g = t.g` for every later table `t` carrying `g`. -/
def allEqFirst : List (Option String) → Bool
  | [] => true
  | v :: vs => vs.all (fun w => w == v)

/-- The WHERE clause: every shared group agrees with its first table. -/
def joinOk (af : List (String × FieldKind)) (t : List Row) : Bool :=
  (allGroups af).all (fun g => allEqFirst (groupValsIn af t g))

/-- The group column selected for `g`: the value of the first table
carrying `g`. -/
def tupleGroupVal (af : List (String × FieldKind)) (t : List Row) (g : String) : String :=
  match (groupValsIn af t g).head? with
  | some (some v) => v
  | _ => ""

/-- The GROUP BY key of a product row: the single fields' filenames and
all group columns. -/
def tupleKey (af : List (String × FieldKind)) (t : List Row) :
    List String × List (String × String) :=
  ((af.zip t).filterMap (fun ft =>
      match ft.1.2 with
      | .single _ _ => some ft.2.filename
      | _ => none),
   (allGroups af).map (fun g => (g, tupleGroupVal af t g)))

/-- The row a tuple holds for the field of the given name. -/
def rowForField (af : List (String × FieldKind)) (t : List Row) (name : String) :
    Option Row :=
  ((af.zip t).find? (fun ft => ft.1.1 == name)).map (fun ft => ft.2)

/-- `GROUP_CONCAT(REPLACE(REPLACE(filename,'\','\\'),',','\,'), ',')`
over the tuples of one GROUP BY class. -/
def listFieldAggregate (af : List (String × FieldKind)) (cls : List (List Row))
    (name : String) : String :=
  concat_with_escape (cls.map (fun t => ((rowForField af t name).map Row.filename).getD ""))

/-- The `new_element` built by `query_filesets` (lines 579-597): `""`
and `[]` fields get their empty defaults, a single field gets its
filename column, and a list field gets
`sorted(parse_comma_escape(value))`. -/
def buildElement (p : Producer) (af : List (String × FieldKind)) (cls : List (List Row)) :
    List (String × FieldVal) :=
  p.fields.map (fun fk =>
    match fk.2 with
    | .absentStr => (fk.1, .str "")
    | .absentList => (fk.1, .strList [])
    | .single _ _ =>
        (fk.1, .str (((cls.head?.bind (fun t => rowForField af t fk.1)).map
          Row.filename).getD ""))
    | .listPat _ _ =>
        (fk.1, .strList (List.insertionSort (fun a b => a.toList ≤ b.toList)
          (parse_comma_escape (listFieldAggregate af cls fk.1)))))

/-- `SUM(is_updated + … )` over one GROUP BY class. -/
def sumUpdated (cls : List (List Row)) : Nat :=
  (cls.map (fun t => (t.map Row.is_updated).sum)).sum

/-- `query_filesets` (lines 559-610). -/
def query_filesets (p : Producer) (i : Nat) (store : Store) :
    List (List (String × FieldVal) × List (String × String)) :=
  let af := activeFields p
  let tables := af.map (fun fk => ((store.lookup (i, fk.1)).getD []))
  let tuples := (productRows tables).filter (joinOk af)
  let keys := (tuples.map (tupleKey af)).dedup
  keys.filterMap (fun key =>
    let cls := tuples.filter (fun t => tupleKey af t == key)
    if sumUpdated cls > 0 then some (buildElement p af cls, key.2) else none)

/-! ### The composed operations -/

/-- The innermost statements of the ingestion loop of
`build_new_creators` (lines 158-171): on a regex miss the file is
skipped; on a hit the old row is deleted and a fresh one inserted. -/
def ingestField (store : Store) (i : Nat) (field : String) (m : Matcher) (path : String) :
    Store × Option SchedErr :=
  match m path with
  | none => (store, none)
  | some groups =>
    match remove_file_from_database store i field path with
    | (s1, some e) => (s1, some e)
    | (s1, none) => insert_new_file s1 i field path groups

/-- The field loop of the ingestion (line 160). -/
def ingestPath (store : Store) (i : Nat) (p : Producer) (path : String) :
    Store × Option SchedErr :=
  foldE (fun s fm => ingestField s i fm.1 fm.2 path) store (regex_field_patterns p)

/-- The path loop of the ingestion (line 159). -/
def ingestProducer (store : Store) (i : Nat) (p : Producer) (files : List String) :
    Store × Option SchedErr :=
  foldE (fun s path => ingestPath s i p path) store files

/-- Lines 179-227 for one query result: resolve `paths`, build the
creator and register it under
`(producer_index, get_hashable_matchgroups(input_groups))`. -/
def materializeOne (sched : SchedState) (i : Nat) (p : Producer)
    (d : List (String × FieldVal) × List (String × String)) : SchedState × Option SchedErr :=
  registerStep sched (i, get_hashable_matchgroups d.2)
    ⟨(p.pathsFn d.1 d.2).1, (p.pathsFn d.1 d.2).2⟩

/-- Lines 177-227 for one producer: query once, then register each
result (the registrations do not touch the store). -/
def materializeProducer (sched : SchedState) (store : Store) (i : Nat) (p : Producer) :
    SchedState × Option SchedErr :=
  foldE (fun sch d => materializeOne sch i p d) sched (query_filesets p i store)

/-- `build_new_creators` (lines 153-231): tear down the creators
consuming the files, refresh their rows, re-materialize every fileset
with `SUM(is_updated) > 0`, and finally clear all `is_updated` flags.
The returned list of new creator indexes is discarded by both callers
and not modelled. -/
def build_new_creators (ps : List Producer) (sched : SchedState) (store : Store)
    (files : List String) : (SchedState × Store) × Option SchedErr :=
  match delete_creators_with_input_files sched files with
  | (s1, some e) => ((s1, store), some e)
  | (s1, none) =>
    match foldE (fun s ip => ingestProducer s ip.1 ip.2 files) store ps.enum with
    | (st2, some e) => ((s1, st2), some e)
    | (st2, none) =>
      match foldE (fun sch ip => materializeProducer sch st2 ip.1 ip.2) s1 ps.enum with
      | (s3, some e) => ((s3, st2), some e)
      | (s3, none) => ((s3, mark_all_files_old ps st2), none)

/-- The inner statement of the deletion loop of `delete_files`
(lines 367-375). -/
def removeField (store : Store) (i : Nat) (field : String) (m : Matcher) (path : String) :
    Store × Option SchedErr :=
  match m path with
  | none => (store, none)
  | some _ => remove_file_from_database store i field path

/-- The field loop of `delete_files`. -/
def removePath (store : Store) (i : Nat) (p : Producer) (path : String) :
    Store × Option SchedErr :=
  foldE (fun s fm => removeField s i fm.1 fm.2 path) store (regex_field_patterns p)

/-- The path loop of `delete_files`. -/
def removeProducer (store : Store) (i : Nat) (p : Producer) (files : List String) :
    Store × Option SchedErr :=
  foldE (fun s path => removePath s i p path) store files

/-- `delete_files` (lines 361-378): tear down the consuming creators,
then delete every matching row; no re-materialization follows. -/
def delete_files (ps : List Producer) (sched : SchedState) (store : Store)
    (files : List String) : (SchedState × Store) × Option SchedErr :=
  match delete_creators_with_input_files sched files with
  | (s1, some e) => ((s1, store), some e)
  | (s1, none) =>
    match foldE (fun s ip => removeProducer s ip.1 ip.2 files) store ps.enum with
    | (st2, e) => ((s1, st2), e)

/-! ### The dirty heap and `process_files`

`UniqueHeap` (`pylib/unique_heap.py`, not among the sources) is
modelled from the spec, §4.3: a de-duplicating priority queue of
creator identities — pushing a present identity is a no-op, pop returns
the least under the lexicographic `(producer_index, match_key)` order.
We represent it as a sorted duplicate-free list; the match keys are
compared by some fixed total order (the precise tie-break among match
keys of one producer does not affect any theorem below). -/

/-- Lexicographic comparison of canonical group lists. -/
def gsLTb : List (String × String) → List (String × String) → Bool
  | [], [] => false
  | [], _ :: _ => true
  | _ :: _, [] => false
  | x :: xs, y :: ys =>
    if x.1 = y.1 then
      if x.2 = y.2 then gsLTb xs ys
      else decide (x.2.toList < y.2.toList)
    else decide (x.1.toList < y.1.toList)

/-- Lexicographic comparison of creator identities: producer index
first. -/
def keyLTb (a b : CreatorKey) : Bool :=
  if a.1 = b.1 then gsLTb a.2 b.2 else decide (a.1 < b.1)

/-- Ordered insertion into the heap's backing list. -/
def heapInsert (k : CreatorKey) : List CreatorKey → List CreatorKey
  | [] => [k]
  | x :: xs => if keyLTb k x then k :: x :: xs else x :: heapInsert k xs

/-- `UniqueHeap.push`: a no-op when the identity is present. -/
def heapPush (h : List CreatorKey) (k : CreatorKey) : List CreatorKey :=
  if k ∈ h then h else heapInsert k h

/-- The seeding loops of `process_files` (lines 243-250 and 279-286):
push every creator consuming one of the files. -/
def seedHeap (sched : SchedState) (h : List CreatorKey) (files : List String) :
    List CreatorKey :=
  files.foldl (fun acc f =>
    match sched.input_file_maps.lookup f with
    | none => acc
    | some s => s.foldl heapPush acc) h

/-- `os.path.dirname`: the text before the last `/`, or `""`. -/
def dirname (p : String) : String :=
  match p.toList.reverse.dropWhile (fun c => c ≠ '/') with
  | [] => ""
  | _ :: rest => rest.reverse.asString

/-- `build_required_directories` (lines 782-786).  When every parent
directory already exists the loop is the identity on the disk;
`os.makedirs` of a missing parent is left out of the model (`none`) —
no theorem below evaluates that branch. -/
def build_required_directories (disk : Disk) (files : List String) : Option Disk :=
  if files.all (fun f => osPathExists disk (dirname f)) then some disk else none

/-- The drain loop of `process_files` (lines 252-326), with explicit
fuel for the loop (the fixpoint need not terminate — spec §4.5) and for
the mtime traversals.  Yields the final state, the identities whose
build actions ran (in execution order), and an error: a scheduler
exception, fuel exhaustion (`fuelOut`), or the unmodelled `makedirs`
branch (`unmodeled`). -/
def processLoop (ps : List Producer) (mfuel : Nat) :
    Nat → List CreatorKey → SchedState → Store → Disk → List CreatorKey →
      (SchedState × Store × Disk) × List CreatorKey × Option SchedErr
  | _, [], sched, store, disk, runs => ((sched, store, disk), runs, none)
  | 0, _ :: _, sched, store, disk, runs => ((sched, store, disk), runs, some .fuelOut)
  | fuel + 1, k :: rest, sched, store, disk, runs =>
    match sched.creator_list.lookup k with
    | none => ((sched, store, disk), runs, some .keyError)
    | some creator =>
      match must_run disk mfuel creator.flat_output_paths creator.flat_input_paths with
      | none => ((sched, store, disk), runs, some .fuelOut)
      | some false => processLoop ps mfuel fuel rest sched store disk runs
      | some true =>
        match build_new_creators ps sched store creator.flat_output_paths with
        | (sb, some e) => ((sb.1, sb.2, disk), runs, some e)
        | (sb, none) =>
          let h2 := seedHeap sb.1 rest creator.flat_output_paths
          match build_required_directories disk creator.flat_output_paths with
          | none => ((sb.1, sb.2, disk), runs, some .unmodeled)
          | some disk1 =>
            match ps.get? k.1 with
            | none => ((sb.1, sb.2, disk1), runs, some .keyError)
            | some p =>
              processLoop ps mfuel fuel h2 sb.1 sb.2
                (p.action creator.flat_input_paths creator.flat_output_paths disk1)
                (runs ++ [k])

/-- `process_files` (lines 238-326). -/
def process_files (ps : List Producer) (mfuel pfuel : Nat) (sched : SchedState)
    (store : Store) (disk : Disk) (files : List String) :
    (SchedState × Store × Disk) × List CreatorKey × Option SchedErr :=
  processLoop ps mfuel pfuel (seedHeap sched [] files) sched store disk []

/-- `add_or_update_files` (lines 91-93). -/
def add_or_update_files (ps : List Producer) (mfuel pfuel : Nat) (sched : SchedState)
    (store : Store) (disk : Disk) (files : List String) :
    (SchedState × Store × Disk) × List CreatorKey × Option SchedErr :=
  match build_new_creators ps sched store files with
  | (sb, some e) => ((sb.1, sb.2, disk), [], some e)
  | (sb, none) => process_files ps mfuel pfuel sb.1 sb.2 disk files

/-- The scheduler states reachable through the public operations:
construction (`__init__` creates empty indices and the initial tables,
then calls `add_or_update_files(initial_filepaths)`),
`add_or_update_files` and `delete_files` — each possibly ending in a
propagated exception, which leaves the mutations made so far in
place. -/
inductive Reach (ps : List Producer) : SchedState → Store → Prop
  | init : Reach ps emptySched (init_producer_cache ps)
  | addOrUpdate (mfuel pfuel : Nat) (disk : Disk) (files : List String)
      (st : SchedState) (store : Store) : Reach ps st store →
      Reach ps (add_or_update_files ps mfuel pfuel st store disk files).1.1
        (add_or_update_files ps mfuel pfuel st store disk files).1.2.1
  | deleteFiles (files : List String) (st : SchedState) (store : Store) :
      Reach ps st store →
      Reach ps (delete_files ps st store files).1.1 (delete_files ps st store files).1.2

/-- Producer sanity from the spec: field names are dict keys (unique),
and the `paths` hook returns input/output path-sets (duplicate-free
flattened lists, §2/§3). -/
structure ProducerWF (p : Producer) : Prop where
  names_nodup : (p.fields.map Prod.fst).Nodup
  paths_nodup : ∀ elem groups, (p.pathsFn elem groups).1.Nodup ∧ (p.pathsFn elem groups).2.Nodup

/-- Store consistency: every table key belongs to a producer field, and
every row's filename matches the regex of its table's field. -/
structure StoreInv (ps : List Producer) (store : Store) : Prop where
  keys : ∀ i fn t, store.lookup (i, fn) = some t →
    ∃ p, ps.get? i = some p ∧ ∃ m, (fn, m) ∈ regex_field_patterns p
  complete : ∀ i p, ps.get? i = some p →
    ∀ fm ∈ regex_field_patterns p, ∃ t, store.lookup (i, fm.1) = some t
  rows : ∀ i fn t, store.lookup (i, fn) = some t →
    ∀ r ∈ t, ∀ p m, ps.get? i = some p → (fn, m) ∈ regex_field_patterns p →
      (m r.filename).isSome

/-- One store evolves from another by only shrinking tables: every
surviving row was already present.  The row-deletion loops of
`delete_files` only move downward in this order. -/
def ShrinkStore (a b : Store) : Prop :=
  ∀ (key : Nat × String) (t' : List Row), b.lookup key = some t' →
    ∃ t, a.lookup key = some t ∧ ∀ r ∈ t', r ∈ t

/-- A concrete one-field producer for instantiating the theorems below:
its single field matches exactly the file `a`; it reads `a` and writes
`o/b`. -/
def wProducer : Producer :=
  { fields := [("f", .single (fun s => if s = "a" then some [("k", "a")] else none) ["k"])]
    pathsFn := fun _ _ => (["a"], ["o/b"])
    action := fun _ _ d => d }


/-- The joined product tuples of `new_filesets_querystring` (the FROM
product restricted by the WHERE clause). -/
def joinTuples (p : Producer) (i : Nat) (store : Store) : List (List Row) :=
  (productRows ((activeFields p).map (fun fk => ((store.lookup (i, fk.1)).getD [])))).filter
    (joinOk (activeFields p))

/-- The GROUP BY class of one key. -/
def classOf (p : Producer) (i : Nat) (store : Store)
    (key : List String × List (String × String)) : List (List Row) :=
  (joinTuples p i store).filter (fun t => tupleKey (activeFields p) t == key)

/-- A producer with one list-pattern field for instantiating the list
field theorems: both `a` and `b` match into module group `X`. -/
def wProducerL : Producer :=
  { fields := [("srcs", .listPat
      (fun s => if s = "a" ∨ s = "b" then some [("mod", "X")] else none) ["mod"])]
    pathsFn := fun _ _ => (["a", "b"], ["o/c"])
    action := fun _ _ d => d }

/-- The match store after ingesting `b` then `a` for `wProducerL`. -/
def wStoreL : Store :=
  (ingestProducer (init_producer_cache [wProducerL]) 0 wProducerL ["b", "a"]).1

/-- Point-update of the modelled filesystem (an action writing a
file). -/
def updateDisk (d : Disk) (p : String) (e : FSEntry) : Disk :=
  fun q => if q = p then some e else d q

/-- First producer of the double-call scenario: consumes `a`, writes
`o/b` with mtime 10. -/
def cexPA : Producer :=
  { fields := [("f", .single (fun s => if s = "a" then some [("k", "a")] else none) ["k"])]
    pathsFn := fun _ _ => (["a"], ["o/b"])
    action := fun _ _ d => updateDisk d "o/b" (.file 10) }

/-- Second producer of the double-call scenario: consumes `o/b` plus
the never-created path `f`, writes `o/c` with mtime 20. -/
def cexPB : Producer :=
  { fields := [("g", .single (fun s => if s = "o/b" then some [("k", "b")] else none) ["k"])]
    pathsFn := fun _ _ => (["o/b", "f"], ["o/c"])
    action := fun _ _ d => updateDisk d "o/c" (.file 20) }

/-- The initial disk of the double-call scenario: the source `a` and
the output directory `o`. -/
def cexDisk : Disk := fun p =>
  if p = "a" then some (.file 0)
  else if p = "o" then some (.dir [])
  else none

/-- A state holding exactly the creator of `wProducer` over `a`. -/
def amendSched : SchedState :=
  (registerStep emptySched (0, [("k", "a")]) ⟨["a"], ["o/b"]⟩).1

/-- The marked match store after `wProducer` ingested `a`. -/
def amendStore : Store :=
  mark_all_files_old [wProducer]
    (ingestProducer (init_producer_cache [wProducer]) 0 wProducer ["a"]).1

/-- A disk on which `wProducer`'s output is strictly newer than its
input. -/
def amendDisk : Disk := fun p =>
  if p = "a" then some (.file 0)
  else if p = "o" then some (.dir [])
  else if p = "o/b" then some (.file 10)
  else none

/-! ### DEFS-END -/

/-! ## Theorems -/

theorem safeName_tail {c : Char} {cs : List Char} (h : safeName (c :: cs) = true) :
    safeName cs = true := by
  cases cs with
  | nil => rfl
  | cons c' cs' =>
    rw [safeName, Bool.and_eq_true] at h
    exact h.2

theorem safeName_head {c c' : Char} {cs : List Char}
    (h : safeName (c :: c' :: cs) = true) (hc : c = '\\') :
    c' ≠ '\\' ∧ c' ≠ ',' := by
  rw [safeName, Bool.and_eq_true] at h
  have h1 := h.1
  by_cases hor : c' = '\\' ∨ c' = ','
  · rw [if_pos ⟨hc, hor⟩] at h1
    exact absurd h1 (by simp)
  · exact ⟨fun he => hor (Or.inl he), fun he => hor (Or.inr he)⟩

theorem lastCharAfter_cons (c : Char) (cs : List Char) (last : Option Char) :
    lastCharAfter (c :: cs) last = lastCharAfter cs (some c) := by
  cases cs with
  | nil => rfl
  | cons c' cs' =>
    unfold lastCharAfter
    rw [List.getLast?_cons_cons]
    cases hg : (c' :: cs').getLast? with
    | none => simp at hg
    | some d => rfl

theorem replaceChar_append (pat : Char) (rep : List Char) (a b : List Char) :
    replaceChar pat rep (a ++ b) = replaceChar pat rep a ++ replaceChar pat rep b := by
  induction a with
  | nil => rfl
  | cons c cs ih => simp [replaceChar, ih]

theorem escapeChars_cons (c : Char) (cs : List Char) :
    escapeChars (c :: cs) =
      (if c = '\\' then ['\\', '\\'] else if c = ',' then ['\\', ','] else [c])
        ++ escapeChars cs := by
  by_cases hc : c = '\\'
  · subst hc
    simp [escapeChars, replaceChar, replaceChar_append]
  · by_cases hc2 : c = ','
    · subst hc2
      simp [escapeChars, replaceChar, replaceChar_append]
    · simp [escapeChars, replaceChar, replaceChar_append, hc, hc2]

theorem parseCEAux_escape (f : List Char) :
    ∀ (rest cur : List Char) (last : Option Char),
      safeName f = true → entryOK f last →
      parseCEAux (escapeChars f ++ rest) cur last
        = parseCEAux rest (cur ++ f) (lastCharAfter f last) := by
  induction f with
  | nil =>
    intro rest cur last _ _
    simp [escapeChars, replaceChar, lastCharAfter]
  | cons c cs ih =>
    intro rest cur last hsafe hentry
    rw [escapeChars_cons]
    by_cases hc : c = '\\'
    · -- the name starts with a backslash; the entry state cannot be a
      -- pending backslash, so the escaped pair `\\` is consumed as one
      -- literal backslash.
      subst hc
      have hlast : last ≠ some '\\' := by
        rcases hentry with h | ⟨c', cs', heq, hc', _⟩
        · exact h
        · cases heq; exact absurd rfl hc'
      rw [if_pos rfl]
      have step1 :
          parseCEAux ('\\' :: '\\' :: (escapeChars cs ++ rest)) cur last
            = parseCEAux ('\\' :: (escapeChars cs ++ rest)) cur (some '\\') := by
        rw [parseCEAux]
        rw [if_neg (by simp), if_pos ⟨rfl, hlast⟩]
      have step2 :
          parseCEAux ('\\' :: (escapeChars cs ++ rest)) cur (some '\\')
            = parseCEAux (escapeChars cs ++ rest) (cur ++ ['\\']) (some '\\') := by
        rw [parseCEAux]
        rw [if_neg (by simp), if_neg (by simp)]
      rw [show ((['\\', '\\'] ++ escapeChars cs) ++ rest
            = '\\' :: '\\' :: (escapeChars cs ++ rest)) by simp]
      rw [step1, step2]
      cases cs with
      | nil =>
        simp [escapeChars, replaceChar, lastCharAfter]
      | cons c' cs' =>
        have hord := safeName_head hsafe rfl
        rw [ih _ _ _ (safeName_tail hsafe) (Or.inr ⟨c', cs', rfl, hord.1, hord.2⟩)]
        simp [lastCharAfter_cons]
    · by_cases hc2 : c = ','
      · -- the name starts with a comma, escaped as `\,`; again the
        -- entry state cannot be a pending backslash.
        subst hc2
        have hlast : last ≠ some '\\' := by
          rcases hentry with h | ⟨c', cs', heq, _, hc'⟩
          · exact h
          · cases heq; exact absurd rfl hc'
        rw [if_neg hc, if_pos rfl]
        have step1 :
            parseCEAux ('\\' :: ',' :: (escapeChars cs ++ rest)) cur last
              = parseCEAux (',' :: (escapeChars cs ++ rest)) cur (some '\\') := by
          rw [parseCEAux]
          rw [if_neg (by simp), if_pos ⟨rfl, hlast⟩]
        have step2 :
            parseCEAux (',' :: (escapeChars cs ++ rest)) cur (some '\\')
              = parseCEAux (escapeChars cs ++ rest) (cur ++ [',']) (some ',') := by
          rw [parseCEAux]
          rw [if_neg (by simp), if_neg (by simp)]
        rw [show ((['\\', ','] ++ escapeChars cs) ++ rest
              = '\\' :: ',' :: (escapeChars cs ++ rest)) by simp]
        rw [step1, step2]
        rw [ih _ _ _ (safeName_tail hsafe) (Or.inl (by simp))]
        simp [lastCharAfter_cons]
      · -- ordinary character: consumed verbatim whatever `last` is.
        rw [if_neg hc, if_neg hc2]
        have step :
            parseCEAux (c :: (escapeChars cs ++ rest)) cur last
              = parseCEAux (escapeChars cs ++ rest) (cur ++ [c]) (some c) := by
          rw [parseCEAux]
          rw [if_neg (by intro h; exact hc2 h.1), if_neg (by intro h; exact hc h.1)]
        rw [show (([c] ++ escapeChars cs) ++ rest = c :: (escapeChars cs ++ rest)) by simp]
        rw [step]
        rw [ih _ _ _ (safeName_tail hsafe) (Or.inl (by simp [hc]))]
        simp [lastCharAfter_cons]

theorem parseCEAux_concat (names : List (List Char)) :
    names ≠ [] → (∀ f ∈ names, safeName f = true) →
    (∀ f ∈ names.dropLast, f.getLast? ≠ some '\\') →
    ∀ last, last ≠ some '\\' →
    parseCEAux (concatEscaped names) [] last = names := by
  induction names with
  | nil => intro h; exact absurd rfl h
  | cons f fs ih =>
    intro _ hsafe hlastbs last hlast
    cases fs with
    | nil =>
      have := parseCEAux_escape f [] [] last (hsafe f (by simp)) (Or.inl hlast)
      simpa [concatEscaped] using this
    | cons f' fs' =>
      rw [show concatEscaped (f :: f' :: fs') = escapeChars f ++ ',' :: concatEscaped (f' :: fs')
            from rfl]
      rw [parseCEAux_escape f _ [] last (hsafe f (by simp)) (Or.inl hlast)]
      have hfend : f.getLast? ≠ some '\\' :=
        hlastbs f (by rw [List.dropLast_cons₂]; exact List.mem_cons_self f _)
      have hafter : lastCharAfter f last ≠ some '\\' := by
        unfold lastCharAfter
        cases hg : f.getLast? with
        | none => exact hlast
        | some c => rw [hg] at hfend; exact hfend
      rw [parseCEAux]
      rw [if_pos ⟨rfl, hafter⟩]
      rw [ih (by simp) (fun g hg => hsafe g (List.mem_cons_of_mem f hg))
            (fun g hg => hlastbs g (by rw [List.dropLast_cons₂]; exact List.mem_cons_of_mem f hg))
            (some ',') (by simp)]
      simp

/-- C1 (amended): the round trip `parse_comma_escape ∘ concat_with_escape`
is the identity on every nonempty list of filenames in which no filename
contains a backslash immediately followed by a backslash or a comma, and
no filename except possibly the last ends in a backslash. -/
theorem parse_comma_escape_concat_with_escape (names : List String)
    (h1 : names ≠ [])
    (h2 : ∀ f ∈ names, safeName f.toList = true)
    (h3 : ∀ f ∈ names.dropLast, f.toList.getLast? ≠ some '\\') :
    parse_comma_escape (concat_with_escape names) = names := by
  unfold parse_comma_escape concat_with_escape
  rw [List.toList_asString]
  rw [parseCEAux_concat (names.map String.toList)
        (by simpa using h1)
        (by intro f hf
            rcases List.mem_map.mp hf with ⟨s, hs, rfl⟩
            exact h2 s hs)
        (by intro f hf
            rw [← List.map_dropLast] at hf
            rcases List.mem_map.mp hf with ⟨s, hs, rfl⟩
            exact h3 s hs)
        none (by simp)]
  rw [List.map_map]
  have : (List.asString ∘ String.toList) = id := by
    funext s
    exact String.asString_toList s
  rw [this, List.map_id]

/-- C1 counterexample: for a filename consisting of two backslashes the
parser, which does not reset `last_character` after consuming an escape,
turns the four escaped backslashes into three. -/
theorem parse_comma_escape_concat_with_escape_cex :
    parse_comma_escape (concat_with_escape ["\\\\"]) ≠ ["\\\\"] := by decide

theorem parse_comma_escape_concat_with_escape_witness :
    (["a,b", "c\\d", ",x,"] : List String) ≠ [] ∧
    (∀ f ∈ (["a,b", "c\\d", ",x,"] : List String), safeName f.toList = true) ∧
    (∀ f ∈ (["a,b", "c\\d", ",x,"] : List String).dropLast,
      f.toList.getLast? ≠ some '\\') ∧
    parse_comma_escape (concat_with_escape ["a,b", "c\\d", ",x,"])
      = ["a,b", "c\\d", ",x,"] :=
  ⟨by decide, by decide, by decide,
    parse_comma_escape_concat_with_escape _ (by decide) (by decide) (by decide)⟩

/-- Helper disk for witnesses: one source file, one output directory
with one child, both carrying mtime 5. -/
def witnessDisk : Disk := fun p =>
  if p = "src/a" then some (.file 5)
  else if p = "out" then some (.dir ["x"])
  else if p = "out/x" then some (.file 5)
  else none

/-- C2: a creator popped by `process_files` runs iff some output file
does not exist or the oldest aggregated output mtime is `≤` the newest
aggregated input mtime (an exact tie runs); in the aggregation a missing
path contributes the default (`+∞`-sentinel for inputs, `0` for
outputs), a directory is replaced by its children on the worklist, and
an empty collection falls back to the default. -/
theorem process_files_staleness (disk : Disk) (fuel : Nat) (outs ins : List String)
    (oldest newest : Rat)
    (ho : get_oldest_modified_time disk fuel outs = some oldest)
    (hn : get_newest_modified_time disk fuel ins = some newest) :
    (must_run disk fuel outs ins = some true ↔
      (all_files_exist disk outs = false ∨ oldest ≤ newest)) ∧
    (oldest = newest → must_run disk fuel outs ins = some true) ∧
    (∀ p d, disk p = none → collectTimes disk d (fuel + 1) [p] = some [d]) ∧
    (∀ p ps cs d, disk p = some (.dir cs) →
      collectTimes disk d (fuel + 1) (p :: ps)
        = collectTimes disk d fuel (ps ++ cs.map (joinPath p))) ∧
    (∀ paths d agg, collectTimes disk d fuel paths = some [] →
      get_aggregated_modified_time disk agg d fuel paths = some d) := by
  have hmain : must_run disk fuel outs ins = some true ↔
      (all_files_exist disk outs = false ∨ oldest ≤ newest) := by
    unfold must_run
    by_cases hex : all_files_exist disk outs = true
    · rw [if_pos hex, ho, hn]
      show some (if oldest > newest then false else true) = some true ↔ _
      by_cases hlt : oldest > newest
      · rw [if_pos hlt]
        constructor
        · intro h; exact absurd h (by simp)
        · intro h
          rcases h with h | h
          · rw [h] at hex; exact absurd hex (by simp)
          · exact absurd h (not_le.mpr hlt)
      · rw [if_neg hlt]
        constructor
        · intro _; exact Or.inr (not_lt.mp hlt)
        · intro _; rfl
    · rw [if_neg hex]
      constructor
      · intro _
        exact Or.inl (Bool.not_eq_true _ ▸ Bool.eq_false_iff.mpr hex)
      · intro _; rfl
  refine ⟨hmain, ?_, ?_, ?_, ?_⟩
  · intro he
    exact hmain.mpr (Or.inr (le_of_eq he))
  · intro p d hp
    simp [collectTimes, hp]
  · intro p ps cs d hp
    simp [collectTimes, hp]
  · intro paths d agg hc
    simp [get_aggregated_modified_time, hc]

theorem process_files_staleness_witness :
    get_oldest_modified_time witnessDisk 3 ["out"] = some 5 ∧
    get_newest_modified_time witnessDisk 3 ["src/a"] = some 5 ∧
    must_run witnessDisk 3 ["out"] ["src/a"] = some true :=
  ⟨by decide, by decide,
    (process_files_staleness witnessDisk 3 ["out"] ["src/a"] 5 5
      (by decide) (by decide)).2.1 rfl⟩

theorem deleteOutputsLoop_spec (idx : CreatorKey) :
    ∀ (fs : List String) (st : SchedState), fs.Nodup →
      (∀ f ∈ fs, st.output_file_maps.lookup f = some idx) →
      (deleteOutputsLoop idx st fs).2 = none ∧
      (deleteOutputsLoop idx st fs).1.creator_list = st.creator_list ∧
      (deleteOutputsLoop idx st fs).1.input_file_maps = st.input_file_maps ∧
      ∀ g, (deleteOutputsLoop idx st fs).1.output_file_maps.lookup g
          = if g ∈ fs then none else st.output_file_maps.lookup g := by
  intro fs
  induction fs with
  | nil =>
    intro st _ _
    exact ⟨rfl, rfl, rfl, fun g => by simp [deleteOutputsLoop]⟩
  | cons f fs ih =>
    intro st hnd hpre
    have hf := hpre f (by simp)
    have hstep : deleteOutputsLoop idx st (f :: fs)
        = deleteOutputsLoop idx
            { st with output_file_maps := st.output_file_maps.erase f } fs := by
      rw [deleteOutputsLoop, hf]
      simp
    have hnd' : fs.Nodup := hnd.of_cons
    have hfnot : f ∉ fs := (List.nodup_cons.mp hnd).1
    have hpre' : ∀ g ∈ fs,
        ({ st with output_file_maps := st.output_file_maps.erase f }
          : SchedState).output_file_maps.lookup g = some idx := by
      intro g hg
      have hgf : g ≠ f := fun he => hfnot (he ▸ hg)
      show (st.output_file_maps.erase f).lookup g = some idx
      rw [Finmap.lookup_erase_ne hgf]
      exact hpre g (List.mem_cons_of_mem f hg)
    obtain ⟨h1, h2, h3, h4⟩ := ih _ hnd' hpre'
    rw [hstep]
    refine ⟨h1, h2, h3, ?_⟩
    intro g
    rw [h4 g]
    by_cases hg : g ∈ fs
    · simp [hg]
    · by_cases hgf : g = f
      · subst hgf
        rw [if_neg hg, if_pos (List.mem_cons_self g fs)]
        exact Finmap.lookup_erase _ _
      · show (if g ∈ fs then none else (st.output_file_maps.erase f).lookup g)
            = if g ∈ f :: fs then none else st.output_file_maps.lookup g
        rw [if_neg hg, if_neg (by simp [hg, hgf]), Finmap.lookup_erase_ne hgf]

theorem removeInputsLoop_spec (idx : CreatorKey) :
    ∀ (fs : List String) (st : SchedState), fs.Nodup →
      (∀ f ∈ fs, ∃ s, st.input_file_maps.lookup f = some s ∧ idx ∈ s) →
      (removeInputsLoop idx st fs).2 = none ∧
      (removeInputsLoop idx st fs).1.creator_list = st.creator_list ∧
      (removeInputsLoop idx st fs).1.output_file_maps = st.output_file_maps ∧
      (∀ g, g ∉ fs →
        (removeInputsLoop idx st fs).1.input_file_maps.lookup g
          = st.input_file_maps.lookup g) ∧
      (∀ g, g ∈ fs →
        (removeInputsLoop idx st fs).1.input_file_maps.lookup g
          = (st.input_file_maps.lookup g).bind
              (fun s => if s.erase idx = [] then none else some (s.erase idx))) := by
  intro fs
  induction fs with
  | nil =>
    intro st _ _
    exact ⟨rfl, rfl, rfl, fun g _ => rfl, fun g hg => absurd hg (by simp)⟩
  | cons f fs ih =>
    intro st hnd hpre
    obtain ⟨s, hs, hmem⟩ := hpre f (by simp)
    have hstep : removeInputsLoop idx st (f :: fs)
        = removeInputsLoop idx
            { st with input_file_maps :=
                if s.erase idx = [] then st.input_file_maps.erase f
                else st.input_file_maps.insert f (s.erase idx) } fs := by
      rw [removeInputsLoop, hs]
      simp [hmem]
    have hnd' : fs.Nodup := hnd.of_cons
    have hfnot : f ∉ fs := (List.nodup_cons.mp hnd).1
    set st' : SchedState :=
      { st with input_file_maps :=
          if s.erase idx = [] then st.input_file_maps.erase f
          else st.input_file_maps.insert f (s.erase idx) } with hst'
    have hlook : ∀ g, g ≠ f →
        st'.input_file_maps.lookup g = st.input_file_maps.lookup g := by
      intro g hgf
      show (if s.erase idx = [] then st.input_file_maps.erase f
          else st.input_file_maps.insert f (s.erase idx)).lookup g = _
      by_cases he : s.erase idx = []
      · rw [if_pos he, Finmap.lookup_erase_ne hgf]
      · rw [if_neg he, Finmap.lookup_insert_of_ne _ hgf]
    have hlookf : st'.input_file_maps.lookup f
        = (st.input_file_maps.lookup f).bind
            (fun s => if s.erase idx = [] then none else some (s.erase idx)) := by
      show (if s.erase idx = [] then st.input_file_maps.erase f
          else st.input_file_maps.insert f (s.erase idx)).lookup f = _
      by_cases he : s.erase idx = []
      · rw [if_pos he, hs, Finmap.lookup_erase]
        show (none : Option (List CreatorKey))
            = if s.erase idx = [] then none else some (s.erase idx)
        rw [if_pos he]
      · rw [if_neg he, hs, Finmap.lookup_insert]
        show some (s.erase idx)
            = if s.erase idx = [] then none else some (s.erase idx)
        rw [if_neg he]
    have hpre' : ∀ g ∈ fs, ∃ t, st'.input_file_maps.lookup g = some t ∧ idx ∈ t := by
      intro g hg
      have hgf : g ≠ f := fun he => hfnot (he ▸ hg)
      rw [hlook g hgf]
      exact hpre g (List.mem_cons_of_mem f hg)
    obtain ⟨h1, h2, h3, h4, h5⟩ := ih st' hnd' hpre'
    rw [hstep]
    refine ⟨h1, h2, h3, ?_, ?_⟩
    · intro g hg
      have hgf : g ≠ f := fun he => hg (he ▸ List.mem_cons_self f fs)
      have hgfs : g ∉ fs := fun h => hg (List.mem_cons_of_mem f h)
      rw [h4 g hgfs, hlook g hgf]
    · intro g hg
      rcases List.mem_cons.mp hg with hgf | hgfs
      · subst hgf
        rw [h4 g hfnot, hlookf]
      · have hgf : g ≠ f := fun he => hfnot (he ▸ hgfs)
        rw [h5 g hgfs, hlook g hgf]

theorem delete_creator_spec (st : SchedState) (idx : CreatorKey) (c : Creator)
    (h : SchedInv st) (hc : st.creator_list.lookup idx = some c) :
    (delete_creator st idx).2 = none ∧
    (∀ k, (delete_creator st idx).1.creator_list.lookup k
        = if k = idx then none else st.creator_list.lookup k) ∧
    (∀ g, (delete_creator st idx).1.output_file_maps.lookup g
        = if g ∈ c.flat_output_paths then none else st.output_file_maps.lookup g) ∧
    (∀ g, g ∉ c.flat_input_paths →
      (delete_creator st idx).1.input_file_maps.lookup g = st.input_file_maps.lookup g) ∧
    (∀ g, g ∈ c.flat_input_paths →
      (delete_creator st idx).1.input_file_maps.lookup g
        = (st.input_file_maps.lookup g).bind
            (fun s => if s.erase idx = [] then none else some (s.erase idx))) := by
  obtain ⟨o1, o2, o3, o4⟩ := deleteOutputsLoop_spec idx c.flat_output_paths st
    (h.out_nodup idx c hc) (fun f hf => h.out_complete idx c hc f hf)
  obtain ⟨i1, i2, i3, i4, i5⟩ := removeInputsLoop_spec idx c.flat_input_paths
    (deleteOutputsLoop idx st c.flat_output_paths).1
    (h.in_nodup idx c hc)
    (by intro f hf
        rw [o3]
        exact h.in_complete idx c hc f hf)
  have hd : delete_creator st idx
      = ({ (removeInputsLoop idx (deleteOutputsLoop idx st c.flat_output_paths).1
              c.flat_input_paths).1 with
            creator_list := (removeInputsLoop idx (deleteOutputsLoop idx st
              c.flat_output_paths).1 c.flat_input_paths).1.creator_list.erase idx }, none) := by
    unfold delete_creator
    rw [hc]
    simp only [o1, i1]
  rw [hd]
  refine ⟨rfl, ?_, ?_, ?_, ?_⟩
  · intro k
    show ((removeInputsLoop idx _ c.flat_input_paths).1.creator_list.erase idx).lookup k = _
    by_cases hk : k = idx
    · subst hk
      rw [if_pos rfl, Finmap.lookup_erase]
    · rw [if_neg hk, Finmap.lookup_erase_ne hk, i2, o2]
  · intro g
    show (removeInputsLoop idx _ c.flat_input_paths).1.output_file_maps.lookup g = _
    rw [i3, o4]
  · intro g hg
    show (removeInputsLoop idx _ c.flat_input_paths).1.input_file_maps.lookup g = _
    rw [i4 g hg, o3]
  · intro g hg
    show (removeInputsLoop idx _ c.flat_input_paths).1.input_file_maps.lookup g = _
    rw [i5 g hg, o3]

theorem schedInv_delete_creator (st : SchedState) (idx : CreatorKey)
    (h : SchedInv st) : SchedInv (delete_creator st idx).1 := by
  cases hc : st.creator_list.lookup idx with
  | none =>
    have hd : delete_creator st idx = (st, some .keyError) := by
      unfold delete_creator; rw [hc]
    rw [hd]
    exact h
  | some c =>
    obtain ⟨e0, hk, ho, hin1, hin2⟩ := delete_creator_spec st idx c h hc
    constructor
    · -- out_complete
      intro k c' hk' f hf
      rw [hk k] at hk'
      by_cases hki : k = idx
      · rw [if_pos hki] at hk'; exact absurd hk' (by simp)
      · rw [if_neg hki] at hk'
        rw [ho f]
        have hfo : f ∉ c.flat_output_paths := by
          intro hfc
          have h1 := h.out_complete idx c hc f hfc
          have h2 := h.out_complete k c' hk' f hf
          rw [h1] at h2
          exact hki (by injection h2 with h3; exact h3.symm)
        rw [if_neg hfo]
        exact h.out_complete k c' hk' f hf
    · -- out_sound
      intro f k hfk
      rw [ho f] at hfk
      by_cases hfo : f ∈ c.flat_output_paths
      · rw [if_pos hfo] at hfk; exact absurd hfk (by simp)
      · rw [if_neg hfo] at hfk
        obtain ⟨c'', hkc, hfc⟩ := h.out_sound f k hfk
        have hki : k ≠ idx := by
          intro he; subst he
          rw [hc] at hkc
          injection hkc with h3
          subst h3
          exact hfo hfc
        rw [hk k, if_neg hki]
        exact ⟨c'', hkc, hfc⟩
    · -- in_complete
      intro k c' hk' f hf
      rw [hk k] at hk'
      by_cases hki : k = idx
      · rw [if_pos hki] at hk'; exact absurd hk' (by simp)
      · rw [if_neg hki] at hk'
        obtain ⟨s, hs, hks⟩ := h.in_complete k c' hk' f hf
        by_cases hfi : f ∈ c.flat_input_paths
        · rw [hin2 f hfi, hs]
          have hkmem : k ∈ s.erase idx := (List.mem_erase_of_ne hki).mpr hks
          have hne : s.erase idx ≠ [] := List.ne_nil_of_mem hkmem
          refine ⟨s.erase idx, ?_, hkmem⟩
          show (if s.erase idx = [] then none else some (s.erase idx)) = some (s.erase idx)
          rw [if_neg hne]
        · rw [hin1 f hfi]
          exact ⟨s, hs, hks⟩
    · -- in_sound
      intro f s' hs' k hks'
      by_cases hfi : f ∈ c.flat_input_paths
      · rw [hin2 f hfi] at hs'
        cases hst : st.input_file_maps.lookup f with
        | none => rw [hst] at hs'; exact absurd hs' (by simp)
        | some s =>
          rw [hst] at hs'
          by_cases he : s.erase idx = []
          · simp only [Option.some_bind, if_pos he] at hs'
            exact absurd hs' (by simp)
          · simp only [Option.some_bind, if_neg he] at hs'
            injection hs' with hs'
            subst hs'
            have hnd := h.in_sets_nodup f s hst
            have hkm := (hnd.mem_erase_iff).mp hks'
            obtain ⟨c'', hkc, hfc⟩ := h.in_sound f s hst k hkm.2
            rw [hk k, if_neg hkm.1]
            exact ⟨c'', hkc, hfc⟩
      · rw [hin1 f hfi] at hs'
        obtain ⟨c'', hkc, hfc⟩ := h.in_sound f s' hs' k hks'
        have hki : k ≠ idx := by
          intro he; subst he
          rw [hc] at hkc
          injection hkc with h3
          subst h3
          exact hfi hfc
        rw [hk k, if_neg hki]
        exact ⟨c'', hkc, hfc⟩
    · -- out_nodup
      intro k c' hk'
      rw [hk k] at hk'
      by_cases hki : k = idx
      · rw [if_pos hki] at hk'; exact absurd hk' (by simp)
      · rw [if_neg hki] at hk'
        exact h.out_nodup k c' hk'
    · -- in_nodup
      intro k c' hk'
      rw [hk k] at hk'
      by_cases hki : k = idx
      · rw [if_pos hki] at hk'; exact absurd hk' (by simp)
      · rw [if_neg hki] at hk'
        exact h.in_nodup k c' hk'
    · -- in_sets_nodup
      intro f s' hs'
      by_cases hfi : f ∈ c.flat_input_paths
      · rw [hin2 f hfi] at hs'
        cases hst : st.input_file_maps.lookup f with
        | none => rw [hst] at hs'; exact absurd hs' (by simp)
        | some s =>
          rw [hst] at hs'
          by_cases he : s.erase idx = []
          · simp only [Option.some_bind, if_pos he] at hs'
            exact absurd hs' (by simp)
          · simp only [Option.some_bind, if_neg he] at hs'
            injection hs' with hs'
            subst hs'
            exact (h.in_sets_nodup f s hst).erase idx
      · rw [hin1 f hfi] at hs'
        exact h.in_sets_nodup f s' hs'

theorem addOutputsLoop_lookup (idx : CreatorKey) :
    ∀ (fs : List String) (m : Finmap (fun _ : String => CreatorKey)) (g : String),
      (addOutputsLoop idx m fs).lookup g
        = if g ∈ fs then some idx else m.lookup g := by
  intro fs
  induction fs with
  | nil => intro m g; simp [addOutputsLoop]
  | cons f fs ih =>
    intro m g
    rw [addOutputsLoop, ih]
    by_cases hg : g ∈ fs
    · rw [if_pos hg, if_pos (List.mem_cons_of_mem f hg)]
    · rw [if_neg hg]
      by_cases hgf : g = f
      · subst hgf
        rw [if_pos (List.mem_cons_self g fs), Finmap.lookup_insert]
      · rw [if_neg (by simp [hgf, hg]), Finmap.lookup_insert_of_ne _ hgf]

theorem addInputsLoop_lookup (idx : CreatorKey) :
    ∀ (fs : List String) (m : Finmap (fun _ : String => List CreatorKey)) (g : String),
      fs.Nodup →
      (addInputsLoop idx m fs).lookup g
        = if g ∈ fs then
            some (match m.lookup g with
                  | none => [idx]
                  | some s => if idx ∈ s then s else s ++ [idx])
          else m.lookup g := by
  intro fs
  induction fs with
  | nil => intro m g _; simp [addInputsLoop]
  | cons f fs ih =>
    intro m g hnd
    have hfnot : f ∉ fs := (List.nodup_cons.mp hnd).1
    rw [addInputsLoop, ih _ _ hnd.of_cons]
    by_cases hg : g ∈ fs
    · have hgf : g ≠ f := fun he => hfnot (he ▸ hg)
      rw [if_pos hg, if_pos (List.mem_cons_of_mem f hg),
        Finmap.lookup_insert_of_ne _ hgf]
    · rw [if_neg hg]
      by_cases hgf : g = f
      · subst hgf
        rw [if_pos (List.mem_cons_self g fs), Finmap.lookup_insert]
      · rw [if_neg (by simp [hgf, hg]), Finmap.lookup_insert_of_ne _ hgf]

theorem dupCheck_eq_none (st : SchedState) (c : Creator) :
    ∀ fs : List String,
      dupCheck st c fs = none ↔ ∀ f ∈ fs, st.output_file_maps.lookup f = none := by
  intro fs
  induction fs with
  | nil => simp [dupCheck]
  | cons f fs ih =>
    rw [dupCheck]
    cases hf : st.output_file_maps.lookup f with
    | none =>
      rw [ih]
      constructor
      · intro ha g hg
        rcases List.mem_cons.mp hg with rfl | hg'
        · exact hf
        · exact ha g hg'
      · intro ha g hg
        exact ha g (List.mem_cons_of_mem f hg)
    | some j =>
      cases hj : st.creator_list.lookup j with
      | some existing =>
        constructor
        · intro he; exact absurd he (by simp [hj])
        · intro ha
          have := ha f (List.mem_cons_self f fs)
          rw [hf] at this
          exact absurd this (by simp)
      | none =>
        constructor
        · intro he; exact absurd he (by simp [hj])
        · intro ha
          have := ha f (List.mem_cons_self f fs)
          rw [hf] at this
          exact absurd this (by simp)

theorem dupCheck_spec (st : SchedState) (c : Creator) (h : SchedInv st) :
    ∀ (fs : List String) (e : SchedErr), dupCheck st c fs = some e →
      ∃ f ∈ fs, ∃ j existing, st.output_file_maps.lookup f = some j ∧
        st.creator_list.lookup j = some existing ∧ e = .dupOutput existing c := by
  intro fs
  induction fs with
  | nil => intro e he; exact absurd he (by simp [dupCheck])
  | cons f fs ih =>
    intro e he
    rw [dupCheck] at he
    cases hf : st.output_file_maps.lookup f with
    | none =>
      rw [hf] at he
      have he' : dupCheck st c fs = some e := he
      obtain ⟨g, hg, rest⟩ := ih e he'
      exact ⟨g, List.mem_cons_of_mem f hg, rest⟩
    | some j =>
      rw [hf] at he
      obtain ⟨existing, hex, hfex⟩ := h.out_sound f j hf
      have he' : (match st.creator_list.lookup j with
          | some existing => some (SchedErr.dupOutput existing c)
          | none => some SchedErr.keyError) = some e := he
      rw [hex] at he'
      injection he' with he'
      exact ⟨f, List.mem_cons_self f fs, j, existing, hf, hex, he'.symm⟩

theorem registerStep_unfold (st : SchedState) (idx : CreatorKey) (c : Creator)
    (hmid : (if (st.creator_list.lookup idx).isSome then delete_creator st idx
        else (st, none)).2 = none) :
    registerStep st idx c
      = (match dupCheck (if (st.creator_list.lookup idx).isSome then delete_creator st idx
            else (st, none)).1 c c.flat_output_paths with
         | some e => ((if (st.creator_list.lookup idx).isSome then delete_creator st idx
              else (st, none)).1, some e)
         | none =>
            ({ creator_list := (if (st.creator_list.lookup idx).isSome then delete_creator st idx
                  else (st, none)).1.creator_list.insert idx c,
               output_file_maps := addOutputsLoop idx
                 (if (st.creator_list.lookup idx).isSome then delete_creator st idx
                   else (st, none)).1.output_file_maps c.flat_output_paths,
               input_file_maps := addInputsLoop idx
                 (if (st.creator_list.lookup idx).isSome then delete_creator st idx
                   else (st, none)).1.input_file_maps c.flat_input_paths },
             none)) := by
  unfold registerStep
  simp only [hmid]

theorem schedInv_registerStep (st : SchedState) (idx : CreatorKey) (c : Creator)
    (h : SchedInv st) (hno : c.flat_output_paths.Nodup) (hni : c.flat_input_paths.Nodup) :
    SchedInv (registerStep st idx c).1 := by
  have hmid2 : (if (st.creator_list.lookup idx).isSome then delete_creator st idx
      else (st, none)).2 = none := by
    cases hLook : st.creator_list.lookup idx with
    | none => rfl
    | some old =>
      show (delete_creator st idx).2 = none
      exact (delete_creator_spec st idx old h hLook).1
  have hmidInv : SchedInv (if (st.creator_list.lookup idx).isSome then delete_creator st idx
      else (st, none)).1 := by
    cases hLook : st.creator_list.lookup idx with
    | none => exact h
    | some old =>
      show SchedInv (delete_creator st idx).1
      exact schedInv_delete_creator st idx h
  have hmididx : (if (st.creator_list.lookup idx).isSome then delete_creator st idx
      else (st, none)).1.creator_list.lookup idx = none := by
    cases hLook : st.creator_list.lookup idx with
    | none => exact hLook
    | some old =>
      show (delete_creator st idx).1.creator_list.lookup idx = none
      rw [(delete_creator_spec st idx old h hLook).2.1 idx, if_pos rfl]
  rw [registerStep_unfold st idx c hmid2]
  set st1 : SchedState := (if (st.creator_list.lookup idx).isSome then delete_creator st idx
      else (st, none)).1 with hst1
  cases hdup : dupCheck st1 c c.flat_output_paths with
  | some e => exact hmidInv
  | none =>
    have hnone : ∀ f ∈ c.flat_output_paths, st1.output_file_maps.lookup f = none :=
      (dupCheck_eq_none st1 c c.flat_output_paths).mp hdup
    constructor
    · -- out_complete
      intro k c' hk' f hf
      show (addOutputsLoop idx st1.output_file_maps c.flat_output_paths).lookup f = some k
      rw [addOutputsLoop_lookup]
      by_cases hki : k = idx
      · subst hki
        rw [Finmap.lookup_insert] at hk'
        injection hk' with hk'
        subst hk'
        rw [if_pos hf]
      · rw [Finmap.lookup_insert_of_ne _ hki] at hk'
        have hfn : f ∉ c.flat_output_paths := by
          intro hfc
          have := hmidInv.out_complete k c' hk' f hf
          rw [hnone f hfc] at this
          exact absurd this (by simp)
        rw [if_neg hfn]
        exact hmidInv.out_complete k c' hk' f hf
    · -- out_sound
      intro f k hfk
      show ∃ c'', (st1.creator_list.insert idx c).lookup k = some c'' ∧
        f ∈ c''.flat_output_paths
      rw [addOutputsLoop_lookup] at hfk
      by_cases hfo : f ∈ c.flat_output_paths
      · rw [if_pos hfo] at hfk
        injection hfk with hfk
        subst hfk
        exact ⟨c, Finmap.lookup_insert _, hfo⟩
      · rw [if_neg hfo] at hfk
        obtain ⟨c'', hkc, hfc⟩ := hmidInv.out_sound f k hfk
        have hki : k ≠ idx := by
          intro he; subst he
          rw [hmididx] at hkc
          exact absurd hkc (by simp)
        rw [Finmap.lookup_insert_of_ne _ hki]
        exact ⟨c'', hkc, hfc⟩
    · -- in_complete
      intro k c' hk' f hf
      show ∃ s, (addInputsLoop idx st1.input_file_maps c.flat_input_paths).lookup f
          = some s ∧ k ∈ s
      rw [addInputsLoop_lookup idx _ _ _ hni]
      by_cases hki : k = idx
      · subst hki
        rw [Finmap.lookup_insert] at hk'
        injection hk' with hk'
        subst hk'
        rw [if_pos hf]
        refine ⟨_, rfl, ?_⟩
        cases hs : st1.input_file_maps.lookup f with
        | none => simp
        | some s =>
          by_cases hks : k ∈ s
          · simp [hks]
          · simp [hks]
      · rw [Finmap.lookup_insert_of_ne _ hki] at hk'
        obtain ⟨s, hs, hks⟩ := hmidInv.in_complete k c' hk' f hf
        by_cases hfi : f ∈ c.flat_input_paths
        · rw [if_pos hfi, hs]
          by_cases hidx : idx ∈ s
          · exact ⟨s, by simp [hidx], hks⟩
          · exact ⟨s ++ [idx], by simp [hidx], List.mem_append_left _ hks⟩
        · rw [if_neg hfi]
          exact ⟨s, hs, hks⟩
    · -- in_sound
      intro f s' hs' k hks'
      show ∃ c'', (st1.creator_list.insert idx c).lookup k = some c'' ∧
        f ∈ c''.flat_input_paths
      rw [addInputsLoop_lookup idx _ _ _ hni] at hs'
      by_cases hfi : f ∈ c.flat_input_paths
      · rw [if_pos hfi] at hs'
        injection hs' with hs'
        by_cases hki : k = idx
        · subst hki
          rw [Finmap.lookup_insert]
          exact ⟨c, rfl, hfi⟩
        · cases hst : st1.input_file_maps.lookup f with
          | none =>
            rw [hst] at hs'
            have hs2 : [idx] = s' := hs'
            subst hs2
            simp only [List.mem_singleton] at hks'
            exact absurd hks' hki
          | some s =>
            rw [hst] at hs'
            have hs2 : (if idx ∈ s then s else s ++ [idx]) = s' := hs'
            subst hs2
            have hkmem : k ∈ s := by
              by_cases hidx : idx ∈ s
              · rw [if_pos hidx] at hks'; exact hks'
              · rw [if_neg hidx] at hks'
                rcases List.mem_append.mp hks' with hks | hks
                · exact hks
                · simp only [List.mem_singleton] at hks
                  exact absurd hks hki
            obtain ⟨c'', hkc, hfc⟩ := hmidInv.in_sound f s hst k hkmem
            rw [Finmap.lookup_insert_of_ne _ hki]
            exact ⟨c'', hkc, hfc⟩
      · rw [if_neg hfi] at hs'
        obtain ⟨c'', hkc, hfc⟩ := hmidInv.in_sound f s' hs' k hks'
        have hki : k ≠ idx := by
          intro he; subst he
          rw [hmididx] at hkc
          exact absurd hkc (by simp)
        rw [Finmap.lookup_insert_of_ne _ hki]
        exact ⟨c'', hkc, hfc⟩
    · -- out_nodup
      intro k c' hk'
      by_cases hki : k = idx
      · subst hki
        rw [Finmap.lookup_insert] at hk'
        injection hk' with hk'
        subst hk'
        exact hno
      · rw [Finmap.lookup_insert_of_ne _ hki] at hk'
        exact hmidInv.out_nodup k c' hk'
    · -- in_nodup
      intro k c' hk'
      by_cases hki : k = idx
      · subst hki
        rw [Finmap.lookup_insert] at hk'
        injection hk' with hk'
        subst hk'
        exact hni
      · rw [Finmap.lookup_insert_of_ne _ hki] at hk'
        exact hmidInv.in_nodup k c' hk'
    · -- in_sets_nodup
      intro f s' hs'
      rw [addInputsLoop_lookup idx _ _ _ hni] at hs'
      by_cases hfi : f ∈ c.flat_input_paths
      · rw [if_pos hfi] at hs'
        injection hs' with hs'
        cases hst : st1.input_file_maps.lookup f with
        | none =>
          rw [hst] at hs'
          have hs2 : [idx] = s' := hs'
          subst hs2
          exact List.nodup_singleton idx
        | some s =>
          rw [hst] at hs'
          have hs2 : (if idx ∈ s then s else s ++ [idx]) = s' := hs'
          have hnd := hmidInv.in_sets_nodup f s hst
          by_cases hidx : idx ∈ s
          · rw [if_pos hidx] at hs2
            subst hs2
            exact hnd
          · rw [if_neg hidx] at hs2
            subst hs2
            exact List.Nodup.append hnd (List.nodup_singleton idx)
              (by intro a ha hb
                  simp only [List.mem_singleton] at hb
                  subst hb
                  exact hidx ha)
      · rw [if_neg hfi] at hs'
        exact hmidInv.in_sets_nodup f s' hs'

theorem schedInv_empty : SchedInv emptySched := by
  constructor <;> intro a b hab <;> simp [emptySched] at hab

theorem registerStep_fresh_mid (st : SchedState) (idx : CreatorKey)
    (hfresh : st.creator_list.lookup idx = none) :
    (if (st.creator_list.lookup idx).isSome then delete_creator st idx else (st, none))
      = (st, none) := by
  rw [hfresh]
  rfl

/-- C3: registering a new creator raises the Duplicate-Output error,
carrying the existing and the new creator, exactly when one of its
output paths is already claimed in `output_file_maps`; the erroring
registration leaves the state untouched (in particular the new creator
is not stored), and a successful one enters every output path into
`output_file_maps` and every input path into `input_file_maps`. -/
theorem registerStep_duplicate_output (st : SchedState) (idx : CreatorKey) (c : Creator)
    (h : SchedInv st) (hfresh : st.creator_list.lookup idx = none)
    (hno : c.flat_output_paths.Nodup) (hni : c.flat_input_paths.Nodup) :
    ((∃ f ∈ c.flat_output_paths, st.output_file_maps.lookup f ≠ none) →
      ∃ existing f j, f ∈ c.flat_output_paths ∧
        st.output_file_maps.lookup f = some j ∧
        st.creator_list.lookup j = some existing ∧
        registerStep st idx c = (st, some (.dupOutput existing c))) ∧
    ((∀ f ∈ c.flat_output_paths, st.output_file_maps.lookup f = none) →
      (registerStep st idx c).2 = none ∧
      (∀ f ∈ c.flat_output_paths,
        (registerStep st idx c).1.output_file_maps.lookup f = some idx) ∧
      (∀ f ∈ c.flat_input_paths,
        ∃ s, (registerStep st idx c).1.input_file_maps.lookup f = some s ∧ idx ∈ s) ∧
      (registerStep st idx c).1.creator_list.lookup idx = some c) := by
  have hmid := registerStep_fresh_mid st idx hfresh
  have hmid2 : (if (st.creator_list.lookup idx).isSome then delete_creator st idx
      else (st, none)).2 = none := by rw [hmid]
  have hunf := registerStep_unfold st idx c hmid2
  rw [hmid] at hunf
  constructor
  · intro ⟨f, hf, hne⟩
    cases hdup : dupCheck st c c.flat_output_paths with
    | none =>
      have := (dupCheck_eq_none st c c.flat_output_paths).mp hdup f hf
      exact absurd this hne
    | some e =>
      obtain ⟨f', hf', j, existing, hj, hex, hee⟩ := dupCheck_spec st c h _ e hdup
      refine ⟨existing, f', j, hf', hj, hex, ?_⟩
      rw [hunf, hdup, hee]
  · intro hall
    have hdup : dupCheck st c c.flat_output_paths = none :=
      (dupCheck_eq_none st c c.flat_output_paths).mpr hall
    rw [hunf, hdup]
    refine ⟨rfl, ?_, ?_, ?_⟩
    · intro f hf
      show (addOutputsLoop idx st.output_file_maps c.flat_output_paths).lookup f = some idx
      rw [addOutputsLoop_lookup, if_pos hf]
    · intro f hf
      show ∃ s, (addInputsLoop idx st.input_file_maps c.flat_input_paths).lookup f
          = some s ∧ idx ∈ s
      rw [addInputsLoop_lookup idx _ _ _ hni, if_pos hf]
      refine ⟨_, rfl, ?_⟩
      cases hs : st.input_file_maps.lookup f with
      | none => simp
      | some s =>
        by_cases hidx : idx ∈ s
        · simp [hidx]
        · simp [hidx]
    · show (st.creator_list.insert idx c).lookup idx = some c
      exact Finmap.lookup_insert _

theorem registerStep_duplicate_output_witness :
    SchedInv (registerStep emptySched (0, [("n", "a")]) ⟨["a"], ["x.out"]⟩).1 ∧
    (registerStep emptySched (0, [("n", "a")]) ⟨["a"], ["x.out"]⟩).1.creator_list.lookup
      (1, [("n", "a")]) = none ∧
    (["x.out"] : List String).Nodup ∧ (["b"] : List String).Nodup ∧
    ∃ existing f j, f ∈ (Creator.mk ["b"] ["x.out"]).flat_output_paths ∧
      (registerStep emptySched (0, [("n", "a")])
          ⟨["a"], ["x.out"]⟩).1.output_file_maps.lookup f = some j ∧
      (registerStep emptySched (0, [("n", "a")])
          ⟨["a"], ["x.out"]⟩).1.creator_list.lookup j = some existing ∧
      registerStep (registerStep emptySched (0, [("n", "a")]) ⟨["a"], ["x.out"]⟩).1
          (1, [("n", "a")]) ⟨["b"], ["x.out"]⟩
        = ((registerStep emptySched (0, [("n", "a")]) ⟨["a"], ["x.out"]⟩).1,
           some (.dupOutput existing ⟨["b"], ["x.out"]⟩)) :=
  ⟨schedInv_registerStep emptySched (0, [("n", "a")]) ⟨["a"], ["x.out"]⟩
      schedInv_empty (by decide) (by decide),
   by decide, by decide, by decide,
   (registerStep_duplicate_output _ (1, [("n", "a")]) ⟨["b"], ["x.out"]⟩
      (schedInv_registerStep emptySched (0, [("n", "a")]) ⟨["a"], ["x.out"]⟩
        schedInv_empty (by decide) (by decide))
      (by decide) (by decide) (by decide)).1
     ⟨"x.out", by decide, by decide⟩⟩

/-- C9: when `build_new_creators` re-materializes an identity already in
`creator_list` and the registration then raises (duplicate output), the
old creator has already been removed from `creator_list`,
`output_file_maps` and `input_file_maps` before the exception
propagates: the state is the one produced by `delete_creator`, not the
original. -/
theorem registerStep_reregister_error_state (st : SchedState) (idx : CreatorKey)
    (c old : Creator) (h : SchedInv st)
    (hold : st.creator_list.lookup idx = some old)
    (he : (registerStep st idx c).2 ≠ none) :
    (registerStep st idx c).1 = (delete_creator st idx).1 ∧
    (registerStep st idx c).1.creator_list.lookup idx = none ∧
    (∀ f ∈ old.flat_output_paths,
      (registerStep st idx c).1.output_file_maps.lookup f = none) ∧
    (∀ f s, (registerStep st idx c).1.input_file_maps.lookup f = some s → idx ∉ s) := by
  obtain ⟨e0, hk, ho, hin1, hin2⟩ := delete_creator_spec st idx old h hold
  have hmid : (if (st.creator_list.lookup idx).isSome then delete_creator st idx
      else (st, none)) = delete_creator st idx := by
    rw [hold]
    rfl
  have hmid2 : (if (st.creator_list.lookup idx).isSome then delete_creator st idx
      else (st, none)).2 = none := by rw [hmid]; exact e0
  have hunf := registerStep_unfold st idx c hmid2
  rw [hmid] at hunf
  have hres : (registerStep st idx c).1 = (delete_creator st idx).1 := by
    rw [hunf]
    cases hdup : dupCheck (delete_creator st idx).1 c c.flat_output_paths with
    | some e => rfl
    | none =>
      exfalso
      apply he
      rw [hunf, hdup]
  refine ⟨hres, ?_, ?_, ?_⟩
  · rw [hres, hk idx, if_pos rfl]
  · intro f hf
    rw [hres, ho f, if_pos hf]
  · intro f s hs hmem
    rw [hres] at hs
    have hInv' := schedInv_delete_creator st idx h
    obtain ⟨c'', hkc, _⟩ := hInv'.in_sound f s hs idx hmem
    rw [hk idx, if_pos rfl] at hkc
    exact absurd hkc (by simp)

theorem registerStep_reregister_error_state_witness :
    SchedInv (registerStep (registerStep emptySched (0, []) ⟨["a"], ["o1"]⟩).1
        (1, []) ⟨["b"], ["o2"]⟩).1 ∧
    (registerStep (registerStep emptySched (0, []) ⟨["a"], ["o1"]⟩).1
        (1, []) ⟨["b"], ["o2"]⟩).1.creator_list.lookup (0, [])
      = some ⟨["a"], ["o1"]⟩ ∧
    (registerStep (registerStep (registerStep emptySched (0, []) ⟨["a"], ["o1"]⟩).1
        (1, []) ⟨["b"], ["o2"]⟩).1 (0, []) ⟨["a"], ["o2"]⟩).2 ≠ none ∧
    (registerStep (registerStep (registerStep emptySched (0, []) ⟨["a"], ["o1"]⟩).1
        (1, []) ⟨["b"], ["o2"]⟩).1 (0, []) ⟨["a"], ["o2"]⟩).1.creator_list.lookup (0, [])
      = none :=
  ⟨schedInv_registerStep (registerStep emptySched (0, []) ⟨["a"], ["o1"]⟩).1
      (1, []) ⟨["b"], ["o2"]⟩
      (schedInv_registerStep emptySched (0, []) ⟨["a"], ["o1"]⟩
        schedInv_empty (by decide) (by decide))
      (by decide) (by decide),
   by decide, by decide,
   (registerStep_reregister_error_state _ (0, []) ⟨["a"], ["o2"]⟩ ⟨["a"], ["o1"]⟩
      (schedInv_registerStep (registerStep emptySched (0, []) ⟨["a"], ["o1"]⟩).1
        (1, []) ⟨["b"], ["o2"]⟩
        (schedInv_registerStep emptySched (0, []) ⟨["a"], ["o1"]⟩
          schedInv_empty (by decide) (by decide))
        (by decide) (by decide))
      (by decide) (by decide)).2.1⟩

theorem foldE_inv {α β : Type} (P : β → Prop) (f : β → α → β × Option SchedErr)
    (as : List α) (hf : ∀ b a, a ∈ as → P b → P (f b a).1) :
    ∀ b : β, P b → P (foldE f b as).1 := by
  induction as with
  | nil => intro b hb; exact hb
  | cons a as ih =>
    intro b hb
    have h1 : P (f b a).1 := hf b a (List.mem_cons_self a as) hb
    rw [foldE]
    cases hr : f b a with
    | mk b1 e =>
      rw [hr] at h1
      cases e with
      | some e0 => exact h1
      | none => exact ih (fun b2 a2 ha2 => hf b2 a2 (List.mem_cons_of_mem a ha2)) b1 h1

theorem assoc_unique {γ : Type} (l : List (String × γ))
    (h : (l.map Prod.fst).Nodup) :
    ∀ {a : String} {x y : γ}, (a, x) ∈ l → (a, y) ∈ l → x = y := by
  induction l with
  | nil => intro a x y h1 _; exact absurd h1 (by simp)
  | cons e l ih =>
    intro a x y h1 h2
    rw [List.map_cons, List.nodup_cons] at h
    rcases List.mem_cons.mp h1 with he1 | he1 <;>
      rcases List.mem_cons.mp h2 with he2 | he2
    · rw [← he1] at he2; injection he2 with _ hxy; exact hxy.symm
    · exfalso
      apply h.1
      rw [show e.1 = a from by rw [← he1]]
      exact List.mem_map.mpr ⟨(a, y), he2, rfl⟩
    · exfalso
      apply h.1
      rw [show e.1 = a from by rw [← he2]]
      exact List.mem_map.mpr ⟨(a, x), he1, rfl⟩
    · exact ih h.2 he1 he2

theorem rfp_names_sublist (fields : List (String × FieldKind)) :
    ((fields.filterMap (fun fk => (fk.2.matcher?).map (fun m => (fk.1, m)))).map
        Prod.fst).Sublist
      (fields.map Prod.fst) := by
  induction fields with
  | nil => simp
  | cons fk fields ih =>
    rw [List.filterMap_cons]
    cases hm : fk.2.matcher? with
    | none =>
      show ((fields.filterMap _).map Prod.fst).Sublist _
      rw [List.map_cons]
      exact ih.trans (List.sublist_cons_self _ _)
    | some m =>
      show (((fk.1, m) :: fields.filterMap _).map Prod.fst).Sublist _
      rw [List.map_cons, List.map_cons]
      exact ih.cons₂ fk.1

theorem rfp_names_nodup (p : Producer) (hwf : ProducerWF p) :
    ((regex_field_patterns p).map Prod.fst).Nodup :=
  List.Nodup.sublist (rfp_names_sublist p.fields) hwf.names_nodup

theorem storeInv_insert_table (ps : List Producer) (store : Store) (i : Nat)
    (fn : String) (t tnew : List Row) (h : StoreInv ps store)
    (ht : store.lookup (i, fn) = some t)
    (hrows : ∀ r ∈ tnew, ∀ p m, ps.get? i = some p →
      (fn, m) ∈ regex_field_patterns p → (m r.filename).isSome) :
    StoreInv ps (store.insert (i, fn) tnew) := by
  constructor
  · intro i' fn' t' hl
    by_cases hk : ((i', fn') : Nat × String) = (i, fn)
    · injection hk with h1 h2
      subst h1; subst h2
      exact h.keys i' fn' t ht
    · rw [Finmap.lookup_insert_of_ne _ hk] at hl
      exact h.keys i' fn' t' hl
  · intro i' p hp fm hfm
    by_cases hk : ((i', fm.1) : Nat × String) = (i, fn)
    · rw [hk]
      exact ⟨tnew, Finmap.lookup_insert _⟩
    · rw [Finmap.lookup_insert_of_ne _ hk]
      exact h.complete i' p hp fm hfm
  · intro i' fn' t' hl r hr p m hp hm
    by_cases hk : ((i', fn') : Nat × String) = (i, fn)
    · injection hk with h1 h2
      subst h1; subst h2
      rw [Finmap.lookup_insert] at hl
      injection hl with hl
      subst hl
      exact hrows r hr p m hp hm
    · rw [Finmap.lookup_insert_of_ne _ hk] at hl
      exact h.rows i' fn' t' hl r hr p m hp hm

theorem storeInv_remove (ps : List Producer) (store : Store) (i : Nat)
    (fn filename : String) (h : StoreInv ps store) :
    StoreInv ps (remove_file_from_database store i fn filename).1 := by
  cases ht : store.lookup (i, fn) with
  | none =>
    have heq : remove_file_from_database store i fn filename = (store, some .sqlError) := by
      unfold remove_file_from_database; rw [ht]
    rw [heq]
    exact h
  | some t =>
    have heq : remove_file_from_database store i fn filename
        = (store.insert (i, fn) (t.filter (fun r => r.filename != filename)), none) := by
      unfold remove_file_from_database; rw [ht]
    rw [heq]
    exact storeInv_insert_table ps store i fn t _ h ht (fun r hr p m hp hm =>
      h.rows i fn t ht r (List.mem_of_mem_filter hr) p m hp hm)

theorem storeInv_insert_new_file (ps : List Producer) (store : Store) (i : Nat)
    (fn filename : String) (groups : List (String × String)) (h : StoreInv ps store)
    (hmatch : ∀ p m, ps.get? i = some p → (fn, m) ∈ regex_field_patterns p →
      (m filename).isSome) :
    StoreInv ps (insert_new_file store i fn filename groups).1 := by
  cases ht : store.lookup (i, fn) with
  | none =>
    have heq : insert_new_file store i fn filename groups = (store, some .sqlError) := by
      unfold insert_new_file; rw [ht]
    rw [heq]
    exact h
  | some t =>
    have hred : insert_new_file store i fn filename groups
        = if t.any (fun r => r.filename == filename) then (store, some .integrityError)
          else (store.insert (i, fn) (t ++ [⟨filename, 1, groups⟩]), none) := by
      unfold insert_new_file
      rw [ht]
    rw [hred]
    by_cases hdup : t.any (fun r => r.filename == filename)
    · rw [if_pos hdup]
      exact h
    · rw [if_neg hdup]
      apply storeInv_insert_table ps store i fn t _ h ht
      intro r hr p m hp hm
      rcases List.mem_append.mp hr with hrt | hrnew
      · exact h.rows i fn t ht r hrt p m hp hm
      · simp only [List.mem_singleton] at hrnew
        subst hrnew
        exact hmatch p m hp hm

theorem storeInv_mark_all_files_old (ps : List Producer) (store : Store)
    (h : StoreInv ps store) : StoreInv ps (mark_all_files_old ps store) := by
  unfold mark_all_files_old
  have inner : ∀ (i : Nat) (fl : List (String × Matcher)) (s2 : Store), StoreInv ps s2 →
      StoreInv ps (fl.foldl (fun s3 fm =>
        match s3.lookup (i, fm.1) with
        | none => s3
        | some t => s3.insert (i, fm.1)
            (t.map (fun r => { r with is_updated := 0 }))) s2) := by
    intro i fl
    induction fl with
    | nil => intro s2 hs2; exact hs2
    | cons fm fl ihf =>
      intro s2 hs2
      rw [List.foldl_cons]
      have hstep : StoreInv ps (match s2.lookup (i, fm.1) with
          | none => s2
          | some t => s2.insert (i, fm.1) (t.map (fun r => { r with is_updated := 0 }))) := by
        cases ht : s2.lookup (i, fm.1) with
        | none => exact hs2
        | some t =>
          apply storeInv_insert_table ps s2 i fm.1 t _ hs2 ht
          intro r hr p m hp hm
          obtain ⟨r0, hr0, hrr⟩ := List.mem_map.mp hr
          rw [← hrr]
          exact hs2.rows i fm.1 t ht r0 hr0 p m hp hm
      exact ihf _ hstep
  have main : ∀ (l : List (Nat × Producer)) (s : Store), StoreInv ps s →
      StoreInv ps (l.foldl (fun s2 ip =>
        (regex_field_patterns ip.2).foldl (fun s3 fm =>
          match s3.lookup (ip.1, fm.1) with
          | none => s3
          | some t => s3.insert (ip.1, fm.1) (t.map (fun r => { r with is_updated := 0 })))
          s2) s) := by
    intro l
    induction l with
    | nil => intro s hs; exact hs
    | cons ip l ih =>
      intro s hs
      rw [List.foldl_cons]
      exact ih _ (inner ip.1 _ s hs)
  exact main ps.enum store h

theorem mem_enum_get {α : Type} {l : List α} {ia : Nat × α} (h : ia ∈ l.enum) :
    l.get? ia.1 = some ia.2 := by
  have := List.mem_enum_iff_get?.mp h
  exact this

theorem get_mem_enum {α : Type} {l : List α} {i : Nat} {a : α} (h : l.get? i = some a) :
    (i, a) ∈ l.enum :=
  List.mem_enum_iff_get?.mpr h

theorem schedInv_delete_creators_with_input_files (st : SchedState) (files : List String)
    (h : SchedInv st) : SchedInv (delete_creators_with_input_files st files).1 :=
  foldE_inv SchedInv delete_creator _ (fun b a _ hb => schedInv_delete_creator b a hb) st h

theorem schedInv_materializeOne (sched : SchedState) (i : Nat) (p : Producer)
    (d : List (String × FieldVal) × List (String × String)) (hwf : ProducerWF p)
    (h : SchedInv sched) : SchedInv (materializeOne sched i p d).1 :=
  schedInv_registerStep _ _ _ h (hwf.paths_nodup d.1 d.2).2 (hwf.paths_nodup d.1 d.2).1

theorem schedInv_materializeProducer (sched : SchedState) (store : Store) (i : Nat)
    (p : Producer) (hwf : ProducerWF p) (h : SchedInv sched) :
    SchedInv (materializeProducer sched store i p).1 :=
  foldE_inv SchedInv _ _ (fun b d _ hb => schedInv_materializeOne b i p d hwf hb) sched h

theorem storeInv_ingestField (ps : List Producer) (store : Store) (i : Nat)
    (fn : String) (m : Matcher) (path : String) (h : StoreInv ps store)
    (hp : ∃ p, ps.get? i = some p ∧ ProducerWF p ∧ (fn, m) ∈ regex_field_patterns p) :
    StoreInv ps (ingestField store i fn m path).1 := by
  unfold ingestField
  cases hm : m path with
  | none => exact h
  | some groups =>
    cases hr : remove_file_from_database store i fn path with
    | mk s1 e =>
      have hs1 : StoreInv ps s1 := by
        have := storeInv_remove ps store i fn path h
        rw [hr] at this
        exact this
      cases e with
      | some e0 => exact hs1
      | none =>
        apply storeInv_insert_new_file ps s1 i fn path groups hs1
        intro p' m' hp' hm'
        obtain ⟨p, hpg, hpwf, hmem⟩ := hp
        rw [hpg] at hp'
        injection hp' with hp'
        rw [← hp'] at hm'
        have hmm : m' = m := assoc_unique _ (rfp_names_nodup p hpwf) hm' hmem
        rw [hmm, hm]
        rfl

theorem storeInv_ingestPath (ps : List Producer) (store : Store) (i : Nat) (p : Producer)
    (path : String) (hg : ps.get? i = some p) (hwf : ProducerWF p) (h : StoreInv ps store) :
    StoreInv ps (ingestPath store i p path).1 :=
  foldE_inv (StoreInv ps) _ _
    (fun b fm hfm hb => storeInv_ingestField ps b i fm.1 fm.2 path hb ⟨p, hg, hwf, hfm⟩)
    store h

theorem storeInv_ingestProducer (ps : List Producer) (store : Store) (i : Nat)
    (p : Producer) (files : List String) (hg : ps.get? i = some p) (hwf : ProducerWF p)
    (h : StoreInv ps store) : StoreInv ps (ingestProducer store i p files).1 :=
  foldE_inv (StoreInv ps) _ _
    (fun b path _ hb => storeInv_ingestPath ps b i p path hg hwf hb) store h

theorem storeInv_removeField (ps : List Producer) (store : Store) (i : Nat)
    (fn : String) (m : Matcher) (path : String) (h : StoreInv ps store) :
    StoreInv ps (removeField store i fn m path).1 := by
  unfold removeField
  cases hm : m path with
  | none => exact h
  | some groups => exact storeInv_remove ps store i fn path h

theorem inv_build_new_creators (ps : List Producer) (sched : SchedState) (store : Store)
    (files : List String) (hwf : ∀ p ∈ ps, ProducerWF p)
    (h1 : SchedInv sched) (h2 : StoreInv ps store) :
    SchedInv (build_new_creators ps sched store files).1.1 ∧
    StoreInv ps (build_new_creators ps sched store files).1.2 := by
  unfold build_new_creators
  cases hd : delete_creators_with_input_files sched files with
  | mk s1 e1 =>
    have hs1 : SchedInv s1 := by
      have := schedInv_delete_creators_with_input_files sched files h1
      rw [hd] at this
      exact this
    cases e1 with
    | some e => exact ⟨hs1, h2⟩
    | none =>
      cases hI : foldE (fun s ip => ingestProducer s ip.1 ip.2 files) store ps.enum with
      | mk st2 e2 =>
        have hst2 : StoreInv ps st2 := by
          have := foldE_inv (StoreInv ps) _ ps.enum
            (fun b ip hip hb => storeInv_ingestProducer ps b ip.1 ip.2 files
              (mem_enum_get hip) (hwf ip.2 (List.get?_mem (mem_enum_get hip))) hb)
            store h2
          rw [hI] at this
          exact this
        cases e2 with
        | some e => exact ⟨hs1, hst2⟩
        | none =>
          cases hM : foldE (fun sch ip => materializeProducer sch st2 ip.1 ip.2) s1 ps.enum with
          | mk s3 e3 =>
            simp only [hM]
            have hs3 : SchedInv s3 := by
              have := foldE_inv SchedInv _ ps.enum
                (fun b ip hip hb => schedInv_materializeProducer b st2 ip.1 ip.2
                  (hwf ip.2 (List.get?_mem (mem_enum_get hip))) hb)
                s1 hs1
              rw [hM] at this
              exact this
            cases e3 with
            | some e => exact ⟨hs3, hst2⟩
            | none => exact ⟨hs3, storeInv_mark_all_files_old ps st2 hst2⟩

theorem storeInv_removePath (ps : List Producer) (store : Store) (i : Nat) (p : Producer)
    (path : String) (h : StoreInv ps store) : StoreInv ps (removePath store i p path).1 :=
  foldE_inv (StoreInv ps) _ _
    (fun b fm _ hb => storeInv_removeField ps b i fm.1 fm.2 path hb) store h

theorem storeInv_removeProducer (ps : List Producer) (store : Store) (i : Nat)
    (p : Producer) (files : List String) (h : StoreInv ps store) :
    StoreInv ps (removeProducer store i p files).1 :=
  foldE_inv (StoreInv ps) _ _
    (fun b path _ hb => storeInv_removePath ps b i p path hb) store h

theorem inv_delete_files (ps : List Producer) (sched : SchedState) (store : Store)
    (files : List String) (h1 : SchedInv sched) (h2 : StoreInv ps store) :
    SchedInv (delete_files ps sched store files).1.1 ∧
    StoreInv ps (delete_files ps sched store files).1.2 := by
  unfold delete_files
  cases hd : delete_creators_with_input_files sched files with
  | mk s1 e1 =>
    have hs1 : SchedInv s1 := by
      have := schedInv_delete_creators_with_input_files sched files h1
      rw [hd] at this
      exact this
    cases e1 with
    | some e => exact ⟨hs1, h2⟩
    | none =>
      cases hR : foldE (fun s ip => removeProducer s ip.1 ip.2 files) store ps.enum with
      | mk st2 e2 =>
        simp only [hR]
        have hst2 : StoreInv ps st2 := by
          have := foldE_inv (StoreInv ps) (fun s ip => removeProducer s ip.1 ip.2 files) ps.enum
            (fun b ip _ hb => storeInv_removeProducer ps b ip.1 ip.2 files hb) store h2
          rw [hR] at this
          exact this
        exact ⟨hs1, hst2⟩

theorem inv_processLoop (ps : List Producer) (mfuel : Nat) (hwf : ∀ p ∈ ps, ProducerWF p) :
    ∀ (fuel : Nat) (h : List CreatorKey) (sched : SchedState) (store : Store) (disk : Disk)
      (runs : List CreatorKey), SchedInv sched → StoreInv ps store →
      SchedInv (processLoop ps mfuel fuel h sched store disk runs).1.1 ∧
      StoreInv ps (processLoop ps mfuel fuel h sched store disk runs).1.2.1 := by
  intro fuel
  induction fuel with
  | zero =>
    intro h sched store disk runs h1 h2
    cases h with
    | nil => exact ⟨h1, h2⟩
    | cons k rest => exact ⟨h1, h2⟩
  | succ fuel ih =>
    intro h sched store disk runs h1 h2
    cases h with
    | nil => exact ⟨h1, h2⟩
    | cons k rest =>
      rw [processLoop]
      cases hl : sched.creator_list.lookup k with
      | none => exact ⟨h1, h2⟩
      | some creator =>
        simp only [hl]
        cases hmr : must_run disk mfuel creator.flat_output_paths creator.flat_input_paths with
        | none => simp only [hmr]; exact ⟨h1, h2⟩
        | some b =>
          cases b with
          | false => exact ih rest sched store disk runs h1 h2
          | true =>
            cases hb : build_new_creators ps sched store creator.flat_output_paths with
            | mk sb e =>
              simp only [hb]
              have hsb : SchedInv sb.1 ∧ StoreInv ps sb.2 := by
                have := inv_build_new_creators ps sched store creator.flat_output_paths hwf h1 h2
                rw [hb] at this
                exact this
              cases e with
              | some e0 => exact ⟨hsb.1, hsb.2⟩
              | none =>
                cases hbd : build_required_directories disk creator.flat_output_paths with
                | none => simp only [hbd]; exact ⟨hsb.1, hsb.2⟩
                | some disk1 =>
                  simp only [hbd]
                  cases hg : ps.get? k.1 with
                  | none => simp only [hg]; exact ⟨hsb.1, hsb.2⟩
                  | some p =>
                    simp only [hg]
                    exact ih _ sb.1 sb.2 _ _ hsb.1 hsb.2

theorem inv_add_or_update_files (ps : List Producer) (mfuel pfuel : Nat)
    (sched : SchedState) (store : Store) (disk : Disk) (files : List String)
    (hwf : ∀ p ∈ ps, ProducerWF p) (h1 : SchedInv sched) (h2 : StoreInv ps store) :
    SchedInv (add_or_update_files ps mfuel pfuel sched store disk files).1.1 ∧
    StoreInv ps (add_or_update_files ps mfuel pfuel sched store disk files).1.2.1 := by
  unfold add_or_update_files
  cases hb : build_new_creators ps sched store files with
  | mk sb e =>
    have hsb : SchedInv sb.1 ∧ StoreInv ps sb.2 := by
      have := inv_build_new_creators ps sched store files hwf h1 h2
      rw [hb] at this
      exact this
    cases e with
    | some e0 => exact hsb
    | none => exact inv_processLoop ps mfuel hwf pfuel _ sb.1 sb.2 disk [] hsb.1 hsb.2

theorem initFold_preserve (i : Nat) :
    ∀ (fl : List (String × Matcher)) (s : Store) (k : Nat × String),
      s.lookup k = some [] →
      (fl.foldl (fun s2 fm => s2.insert (i, fm.1) []) s).lookup k = some [] := by
  intro fl
  induction fl with
  | nil => intro s k h; exact h
  | cons fm fl ih =>
    intro s k h
    rw [List.foldl_cons]
    apply ih
    by_cases hk : k = (i, fm.1)
    · rw [hk]
      exact Finmap.lookup_insert _
    · rw [Finmap.lookup_insert_of_ne _ hk]
      exact h

theorem initFold_mem (i : Nat) :
    ∀ (fl : List (String × Matcher)) (s : Store) (fm : String × Matcher), fm ∈ fl →
      (fl.foldl (fun s2 fm => s2.insert (i, fm.1) []) s).lookup (i, fm.1) = some [] := by
  intro fl
  induction fl with
  | nil => intro s fm h; exact absurd h (by simp)
  | cons fm0 fl ih =>
    intro s fm h
    rw [List.foldl_cons]
    rcases List.mem_cons.mp h with he | he
    · subst he
      exact initFold_preserve i fl _ _ (Finmap.lookup_insert _)
    · exact ih _ fm he

theorem initFold_inv (i : Nat) :
    ∀ (fl : List (String × Matcher)) (s : Store) (k : Nat × String) (t : List Row),
      (fl.foldl (fun s2 fm => s2.insert (i, fm.1) []) s).lookup k = some t →
      s.lookup k = some t ∨ (t = [] ∧ ∃ fm ∈ fl, k = (i, fm.1)) := by
  intro fl
  induction fl with
  | nil => intro s k t h; exact Or.inl h
  | cons fm0 fl ih =>
    intro s k t h
    rw [List.foldl_cons] at h
    rcases ih _ k t h with h1 | ⟨ht, fm, hfm, hk⟩
    · by_cases hk : k = (i, fm0.1)
      · rw [hk, Finmap.lookup_insert] at h1
        injection h1 with h1
        exact Or.inr ⟨h1.symm, fm0, List.mem_cons_self fm0 fl, hk⟩
      · rw [Finmap.lookup_insert_of_ne _ hk] at h1
        exact Or.inl h1
    · exact Or.inr ⟨ht, fm, List.mem_cons_of_mem fm0 hfm, hk⟩

theorem initCache_preserve :
    ∀ (l : List (Nat × Producer)) (s : Store) (k : Nat × String),
      s.lookup k = some [] →
      (l.foldl (fun s ip => initTablesFor ip.1 ip.2 s) s).lookup k = some [] := by
  intro l
  induction l with
  | nil => intro s k h; exact h
  | cons ip l ih =>
    intro s k h
    rw [List.foldl_cons]
    exact ih _ k (initFold_preserve ip.1 _ s k h)

theorem initCache_complete :
    ∀ (l : List (Nat × Producer)) (s : Store) (ip : Nat × Producer), ip ∈ l →
      ∀ fm ∈ regex_field_patterns ip.2,
      (l.foldl (fun s ip => initTablesFor ip.1 ip.2 s) s).lookup (ip.1, fm.1) = some [] := by
  intro l
  induction l with
  | nil => intro s ip h; exact absurd h (by simp)
  | cons ip0 l ih =>
    intro s ip h fm hfm
    rw [List.foldl_cons]
    rcases List.mem_cons.mp h with he | he
    · subst he
      exact initCache_preserve l _ _ (initFold_mem ip.1 _ s fm hfm)
    · exact ih _ ip he fm hfm

theorem initCache_inv :
    ∀ (l : List (Nat × Producer)) (s : Store) (k : Nat × String) (t : List Row),
      (l.foldl (fun s ip => initTablesFor ip.1 ip.2 s) s).lookup k = some t →
      s.lookup k = some t ∨
        (t = [] ∧ ∃ ip ∈ l, ∃ fm ∈ regex_field_patterns ip.2, k = (ip.1, fm.1)) := by
  intro l
  induction l with
  | nil => intro s k t h; exact Or.inl h
  | cons ip0 l ih =>
    intro s k t h
    rw [List.foldl_cons] at h
    rcases ih _ k t h with h1 | ⟨ht, ip, hip, fm, hfm, hk⟩
    · rcases initFold_inv ip0.1 _ s k t h1 with h2 | ⟨ht, fm, hfm, hk⟩
      · exact Or.inl h2
      · exact Or.inr ⟨ht, ip0, List.mem_cons_self ip0 l, fm, hfm, hk⟩
    · exact Or.inr ⟨ht, ip, List.mem_cons_of_mem ip0 hip, fm, hfm, hk⟩

theorem storeInv_init (ps : List Producer) : StoreInv ps (init_producer_cache ps) := by
  have hinv := initCache_inv ps.enum (∅ : Finmap _)
  constructor
  · intro i fn t hl
    rcases hinv (i, fn) t hl with h | ⟨_, ip, hip, fm, hfm, hk⟩
    · rw [Finmap.lookup_empty] at h
      exact absurd h (by simp)
    · injection hk with h1 h2
      refine ⟨ip.2, ?_, fm.2, ?_⟩
      · rw [h1]
        exact mem_enum_get hip
      · rw [h2]
        simpa using hfm
  · intro i p hp fm hfm
    exact ⟨[], initCache_complete ps.enum _ (i, p) (get_mem_enum hp) fm hfm⟩
  · intro i fn t hl r hr p m hp hm
    rcases hinv (i, fn) t hl with h | ⟨ht, _⟩
    · rw [Finmap.lookup_empty] at h
      exact absurd h (by simp)
    · subst ht
      exact absurd hr (by simp)

theorem reach_inv (ps : List Producer) (hwf : ∀ p ∈ ps, ProducerWF p) :
    ∀ (st : SchedState) (store : Store), Reach ps st store →
      SchedInv st ∧ StoreInv ps store := by
  intro st store h
  induction h with
  | init => exact ⟨schedInv_empty, storeInv_init ps⟩
  | addOrUpdate mfuel pfuel disk files st0 store0 _ ih =>
    exact inv_add_or_update_files ps mfuel pfuel st0 store0 disk files hwf ih.1 ih.2
  | deleteFiles files st0 store0 _ ih =>
    exact inv_delete_files ps st0 store0 files ih.1 ih.2

/-- C4: at every state reachable through the scheduler's public
operations (construction, `add_or_update_files`, `delete_files`) the
output file sets of distinct creators are disjoint — each output path
is claimed in `output_file_maps` by exactly the creator that owns it —
and every input file of every live creator is a key of
`input_file_maps` whose set carries that creator's identity. -/
theorem reach_outputs_disjoint_inputs_indexed (ps : List Producer) (st : SchedState)
    (store : Store) (hwf : ∀ p ∈ ps, ProducerWF p) (hreach : Reach ps st store) :
    (∀ k1 k2 c1 c2, st.creator_list.lookup k1 = some c1 →
      st.creator_list.lookup k2 = some c2 → k1 ≠ k2 →
      ∀ f ∈ c1.flat_output_paths, f ∉ c2.flat_output_paths) ∧
    (∀ k c, st.creator_list.lookup k = some c →
      ∀ f ∈ c.flat_output_paths, st.output_file_maps.lookup f = some k) ∧
    (∀ k c, st.creator_list.lookup k = some c →
      ∀ f ∈ c.flat_input_paths, ∃ s, st.input_file_maps.lookup f = some s ∧ k ∈ s) := by
  obtain ⟨hs, _⟩ := reach_inv ps hwf st store hreach
  refine ⟨?_, hs.out_complete, hs.in_complete⟩
  intro k1 k2 c1 c2 h1 h2 hne f hf1 hf2
  have e1 := hs.out_complete k1 c1 h1 f hf1
  have e2 := hs.out_complete k2 c2 h2 f hf2
  rw [e1] at e2
  injection e2 with e2
  exact hne e2

theorem reach_outputs_disjoint_inputs_indexed_witness :
    (∀ p ∈ ([] : List Producer), ProducerWF p) ∧
    Reach ([] : List Producer) emptySched (init_producer_cache []) ∧
    (∀ k c, emptySched.creator_list.lookup k = some c →
      ∀ f ∈ c.flat_output_paths, emptySched.output_file_maps.lookup f = some k) :=
  ⟨fun p hp => absurd hp (by simp), Reach.init,
   (reach_outputs_disjoint_inputs_indexed [] emptySched (init_producer_cache [])
      (fun p hp => absurd hp (by simp)) Reach.init).2.1⟩

theorem addAll_grow (acc : List CreatorKey) (s : List CreatorKey) :
    ∀ k ∈ acc, k ∈ s.foldl (fun a k => if k ∈ a then a else a ++ [k]) acc := by
  induction s generalizing acc with
  | nil => intro k hk; exact hk
  | cons k0 s ih =>
    intro k hk
    rw [List.foldl_cons]
    apply ih
    by_cases h0 : k0 ∈ acc
    · rw [if_pos h0]; exact hk
    · rw [if_neg h0]; exact List.mem_append_left _ hk

theorem addAll_mem (acc : List CreatorKey) (s : List CreatorKey) :
    ∀ k ∈ s, k ∈ s.foldl (fun a k => if k ∈ a then a else a ++ [k]) acc := by
  induction s generalizing acc with
  | nil => intro k hk; exact absurd hk (by simp)
  | cons k0 s ih =>
    intro k hk
    rw [List.foldl_cons]
    rcases List.mem_cons.mp hk with he | he
    · subst he
      apply addAll_grow
      by_cases h0 : k ∈ acc
      · rw [if_pos h0]; exact h0
      · rw [if_neg h0]; exact List.mem_append_right _ (by simp)
    · exact ih _ k he

theorem addAll_inv (acc : List CreatorKey) (s : List CreatorKey) :
    ∀ k, k ∈ s.foldl (fun a k => if k ∈ a then a else a ++ [k]) acc →
      k ∈ acc ∨ k ∈ s := by
  induction s generalizing acc with
  | nil => intro k hk; exact Or.inl hk
  | cons k0 s ih =>
    intro k hk
    rw [List.foldl_cons] at hk
    rcases ih _ k hk with h1 | h1
    · by_cases h0 : k0 ∈ acc
      · rw [if_pos h0] at h1; exact Or.inl h1
      · rw [if_neg h0] at h1
        rcases List.mem_append.mp h1 with h2 | h2
        · exact Or.inl h2
        · simp only [List.mem_singleton] at h2
          exact Or.inr (h2 ▸ List.mem_cons_self k0 s)
    · exact Or.inr (List.mem_cons_of_mem k0 h1)

theorem addAll_nodup (acc : List CreatorKey) (s : List CreatorKey) (h : acc.Nodup) :
    (s.foldl (fun a k => if k ∈ a then a else a ++ [k]) acc).Nodup := by
  induction s generalizing acc with
  | nil => exact h
  | cons k0 s ih =>
    rw [List.foldl_cons]
    apply ih
    by_cases h0 : k0 ∈ acc
    · rw [if_pos h0]; exact h
    · rw [if_neg h0]
      exact List.Nodup.append h (List.nodup_singleton k0)
        (by intro a ha hb
            simp only [List.mem_singleton] at hb
            subst hb
            exact h0 ha)

theorem creatorsToDelete_nodup (st : SchedState) (files : List String) :
    (creatorsToDelete st files).Nodup := by
  unfold creatorsToDelete
  have main : ∀ (fl : List String) (acc : List CreatorKey), acc.Nodup →
      (fl.foldl (fun acc f =>
        match st.input_file_maps.lookup f with
        | none => acc
        | some s => s.foldl (fun a k => if k ∈ a then a else a ++ [k]) acc) acc).Nodup := by
    intro fl
    induction fl with
    | nil => intro acc h; exact h
    | cons f fl ih =>
      intro acc h
      rw [List.foldl_cons]
      apply ih
      cases hf : st.input_file_maps.lookup f with
      | none => exact h
      | some s => exact addAll_nodup acc s h
  exact main files [] (by simp)

theorem creatorsToDelete_inv (st : SchedState) (files : List String) :
    ∀ k ∈ creatorsToDelete st files,
      ∃ f ∈ files, ∃ s, st.input_file_maps.lookup f = some s ∧ k ∈ s := by
  unfold creatorsToDelete
  have main : ∀ (fl : List String) (acc : List CreatorKey) (k : CreatorKey),
      k ∈ fl.foldl (fun acc f =>
        match st.input_file_maps.lookup f with
        | none => acc
        | some s => s.foldl (fun a k => if k ∈ a then a else a ++ [k]) acc) acc →
      k ∈ acc ∨ ∃ f ∈ fl, ∃ s, st.input_file_maps.lookup f = some s ∧ k ∈ s := by
    intro fl
    induction fl with
    | nil => intro acc k h; exact Or.inl h
    | cons f fl ih =>
      intro acc k h
      rw [List.foldl_cons] at h
      rcases ih _ k h with h1 | ⟨g, hg, s, hs, hk⟩
      · cases hf : st.input_file_maps.lookup f with
        | none =>
          rw [hf] at h1
          exact Or.inl h1
        | some s =>
          rw [hf] at h1
          rcases addAll_inv acc s k h1 with h2 | h2
          · exact Or.inl h2
          · exact Or.inr ⟨f, List.mem_cons_self f fl, s, hf, h2⟩
      · exact Or.inr ⟨g, List.mem_cons_of_mem f hg, s, hs, hk⟩
  intro k hk
  rcases main files [] k hk with h | h
  · exact absurd h (by simp)
  · exact h

theorem creatorsToDelete_covers (st : SchedState) (files : List String) :
    ∀ f ∈ files, ∀ s, st.input_file_maps.lookup f = some s →
      ∀ k ∈ s, k ∈ creatorsToDelete st files := by
  unfold creatorsToDelete
  have grow : ∀ (fl : List String) (acc : List CreatorKey), ∀ k ∈ acc,
      k ∈ fl.foldl (fun acc f =>
        match st.input_file_maps.lookup f with
        | none => acc
        | some s => s.foldl (fun a k => if k ∈ a then a else a ++ [k]) acc) acc := by
    intro fl
    induction fl with
    | nil => intro acc k h; exact h
    | cons f fl ih =>
      intro acc k h
      rw [List.foldl_cons]
      apply ih
      cases hf : st.input_file_maps.lookup f with
      | none => exact h
      | some s => exact addAll_grow acc s k h
  have main : ∀ (fl : List String) (acc : List CreatorKey) (f : String), f ∈ fl →
      ∀ s, st.input_file_maps.lookup f = some s → ∀ k ∈ s,
      k ∈ fl.foldl (fun acc f =>
        match st.input_file_maps.lookup f with
        | none => acc
        | some s => s.foldl (fun a k => if k ∈ a then a else a ++ [k]) acc) acc := by
    intro fl
    induction fl with
    | nil => intro acc f h; exact absurd h (by simp)
    | cons f0 fl ih =>
      intro acc f hf s hs k hk
      rw [List.foldl_cons]
      rcases List.mem_cons.mp hf with he | he
      · subst he
        rw [hs]
        exact grow fl _ k (addAll_mem acc s k hk)
      · exact ih _ f he s hs k hk
  intro f hf s hs k hk
  exact main files [] f hf s hs k hk

theorem deleteLoop_spec (ks : List CreatorKey) :
    ∀ (st : SchedState), SchedInv st → ks.Nodup →
      (∀ k ∈ ks, (st.creator_list.lookup k).isSome) →
      (foldE delete_creator st ks).2 = none ∧
      ∀ k, (foldE delete_creator st ks).1.creator_list.lookup k
          = if k ∈ ks then none else st.creator_list.lookup k := by
  induction ks with
  | nil =>
    intro st _ _ _
    exact ⟨rfl, fun k => by simp [foldE]⟩
  | cons k0 ks ih =>
    intro st hinv hnd hlive
    obtain ⟨c0, hc0⟩ := Option.isSome_iff_exists.mp (hlive k0 (List.mem_cons_self k0 ks))
    obtain ⟨e0, hk, _, _, _⟩ := delete_creator_spec st k0 c0 hinv hc0
    have hnd' : ks.Nodup := hnd.of_cons
    have hk0 : k0 ∉ ks := (List.nodup_cons.mp hnd).1
    have hstep : foldE delete_creator st (k0 :: ks)
        = foldE delete_creator (delete_creator st k0).1 ks := by
      rw [foldE]
      cases hd : delete_creator st k0 with
      | mk s1 e =>
        rw [hd] at e0
        cases e with
        | some e1 => exact absurd e0 (by simp)
        | none => rfl
    rw [hstep]
    obtain ⟨ih1, ih2⟩ := ih (delete_creator st k0).1
      (schedInv_delete_creator st k0 hinv) hnd'
      (by intro k hkm
          rw [hk k, if_neg (show ¬k = k0 from fun he => hk0 (by rw [← he]; exact hkm))]
          exact hlive k (List.mem_cons_of_mem k0 hkm))
    refine ⟨ih1, ?_⟩
    intro k
    rw [ih2 k, hk k]
    by_cases hkk : k ∈ ks
    · rw [if_pos hkk, if_pos (List.mem_cons_of_mem k0 hkk)]
    · by_cases hk0' : k = k0
      · subst hk0'
        rw [if_neg hkk, if_pos rfl, if_pos (List.mem_cons_self k ks)]
      · rw [if_neg hkk, if_neg hk0', if_neg (by simp [hkk, hk0'])]

theorem delete_creators_with_input_files_spec (st : SchedState) (files : List String)
    (hinv : SchedInv st) :
    (delete_creators_with_input_files st files).2 = none ∧
    ∀ k, (delete_creators_with_input_files st files).1.creator_list.lookup k
        = if k ∈ creatorsToDelete st files then none else st.creator_list.lookup k := by
  apply deleteLoop_spec (creatorsToDelete st files) st hinv (creatorsToDelete_nodup st files)
  intro k hk
  obtain ⟨f, _, s, hs, hks⟩ := creatorsToDelete_inv st files k hk
  obtain ⟨c, hc, _⟩ := hinv.in_sound f s hs k hks
  rw [hc]
  rfl

theorem shrink_refl (a : Store) : ShrinkStore a a :=
  fun _ t' h => ⟨t', h, fun _ hr => hr⟩

theorem shrink_trans {a b c : Store} (h1 : ShrinkStore a b) (h2 : ShrinkStore b c) :
    ShrinkStore a c := by
  intro key t' h
  obtain ⟨t2, hb, hsub2⟩ := h2 key t' h
  obtain ⟨t1, ha, hsub1⟩ := h1 key t2 hb
  exact ⟨t1, ha, fun r hr => hsub1 r (hsub2 r hr)⟩

theorem foldE_rel {α β : Type} (R : β → β → Prop) (hrefl : ∀ b, R b b)
    (htrans : ∀ {a b c : β}, R a b → R b c → R a c)
    (f : β → α → β × Option SchedErr) (as : List α)
    (hstep : ∀ b a, R b (f b a).1) :
    ∀ b, R b (foldE f b as).1 := by
  induction as with
  | nil => intro b; exact hrefl b
  | cons a as ih =>
    intro b
    rw [foldE]
    cases hf : f b a with
    | mk b1 e =>
      have h1 : R b b1 := by
        have := hstep b a
        rw [hf] at this
        exact this
      cases e with
      | some e0 => exact h1
      | none => exact htrans h1 (ih b1)

theorem foldE_noerr {α β : Type} (P : β → Prop) (f : β → α → β × Option SchedErr)
    (as : List α) (hstep : ∀ b a, a ∈ as → P b → (f b a).2 = none ∧ P (f b a).1) :
    ∀ b, P b → (foldE f b as).2 = none ∧ P (foldE f b as).1 := by
  induction as with
  | nil => intro b hb; exact ⟨rfl, hb⟩
  | cons a as ih =>
    intro b hb
    obtain ⟨he, hp⟩ := hstep b a (List.mem_cons_self a as) hb
    rw [foldE]
    cases hf : f b a with
    | mk b1 e =>
      rw [hf] at he hp
      cases e with
      | some e0 => exact absurd he (by simp)
      | none => exact ih (fun b2 a2 ha2 hb2 => hstep b2 a2 (List.mem_cons_of_mem a ha2) hb2) b1 hp

theorem shrink_remove (store : Store) (i : Nat) (fn filename : String) :
    ShrinkStore store (remove_file_from_database store i fn filename).1 := by
  cases ht : store.lookup (i, fn) with
  | none =>
    have heq : remove_file_from_database store i fn filename = (store, some .sqlError) := by
      unfold remove_file_from_database; rw [ht]
    rw [heq]
    exact shrink_refl store
  | some t =>
    have heq : remove_file_from_database store i fn filename
        = (store.insert (i, fn) (t.filter (fun r => r.filename != filename)), none) := by
      unfold remove_file_from_database; rw [ht]
    rw [heq]
    intro key t' h
    by_cases hk : key = (i, fn)
    · subst hk
      rw [Finmap.lookup_insert] at h
      injection h with h
      subst h
      exact ⟨t, ht, fun r hr => List.mem_of_mem_filter hr⟩
    · rw [Finmap.lookup_insert_of_ne _ hk] at h
      exact ⟨t', h, fun _ hr => hr⟩

theorem shrink_removeField (store : Store) (i : Nat) (fn : String) (m : Matcher)
    (path : String) : ShrinkStore store (removeField store i fn m path).1 := by
  unfold removeField
  cases hm : m path with
  | none => exact shrink_refl store
  | some groups => exact shrink_remove store i fn path

theorem shrink_removePath (store : Store) (i : Nat) (p : Producer) (path : String) :
    ShrinkStore store (removePath store i p path).1 := by
  unfold removePath
  exact foldE_rel ShrinkStore shrink_refl (fun h1 h2 => shrink_trans h1 h2)
    (fun s fm => removeField s i fm.1 fm.2 path) (regex_field_patterns p)
    (fun b fm => shrink_removeField b i fm.1 fm.2 path) store

theorem shrink_removeProducer (store : Store) (i : Nat) (p : Producer)
    (files : List String) : ShrinkStore store (removeProducer store i p files).1 := by
  unfold removeProducer
  exact foldE_rel ShrinkStore shrink_refl (fun h1 h2 => shrink_trans h1 h2)
    (fun s path => removePath s i p path) files
    (fun b path => shrink_removePath b i p path) store

theorem remove_kills (store : Store) (i : Nat) (fn path : String) :
    ∀ t', (remove_file_from_database store i fn path).1.lookup (i, fn) = some t' →
      ∀ r ∈ t', r.filename ≠ path := by
  cases ht : store.lookup (i, fn) with
  | none =>
    have heq : remove_file_from_database store i fn path = (store, some .sqlError) := by
      unfold remove_file_from_database; rw [ht]
    rw [heq]
    intro t' h
    rw [ht] at h
    exact absurd h (by simp)
  | some t =>
    have heq : remove_file_from_database store i fn path
        = (store.insert (i, fn) (t.filter (fun r => r.filename != path)), none) := by
      unfold remove_file_from_database; rw [ht]
    rw [heq]
    intro t' h
    rw [Finmap.lookup_insert] at h
    injection h with h
    subst h
    intro r hr
    have := List.of_mem_filter hr
    simpa using this

theorem kills_of_shrink {a b : Store} (i : Nat) (fn path : String)
    (h : ShrinkStore a b)
    (ha : ∀ t, a.lookup (i, fn) = some t → ∀ r ∈ t, r.filename ≠ path) :
    ∀ t', b.lookup (i, fn) = some t' → ∀ r ∈ t', r.filename ≠ path := by
  intro t' ht' r hr
  obtain ⟨t, hat, hsub⟩ := h (i, fn) t' ht'
  exact ha t hat r (hsub r hr)

theorem removePath_kills (store : Store) (i : Nat) (p : Producer) (path : String)
    (fn : String) (m : Matcher) (hm : (fn, m) ∈ regex_field_patterns p)
    (hmatch : (m path).isSome)
    (herr : (removePath store i p path).2 = none) :
    ∀ t', (removePath store i p path).1.lookup (i, fn) = some t' →
      ∀ r ∈ t', r.filename ≠ path := by
  unfold removePath at herr ⊢
  have main : ∀ (fl : List (String × Matcher)) (store : Store), (fn, m) ∈ fl →
      (foldE (fun s fm => removeField s i fm.1 fm.2 path) store fl).2 = none →
      ∀ t', (foldE (fun s fm => removeField s i fm.1 fm.2 path) store fl).1.lookup (i, fn)
          = some t' → ∀ r ∈ t', r.filename ≠ path := by
    intro fl
    induction fl with
    | nil => intro store hmem; exact absurd hmem (by simp)
    | cons fm0 fl ih =>
      intro store hmem herr2 t' ht' r hr
      rw [foldE] at herr2 ht'
      cases hstep : removeField store i fm0.1 fm0.2 path with
      | mk s1 e =>
        rw [hstep] at herr2 ht'
        cases e with
        | some e0 => exact absurd herr2 (by simp)
        | none =>
          rcases List.mem_cons.mp hmem with he | he
          · subst he
            have hkill : ∀ t2, s1.lookup (i, fn) = some t2 →
                ∀ r2 ∈ t2, r2.filename ≠ path := by
              intro t2 ht2
              obtain ⟨g, hg⟩ := Option.isSome_iff_exists.mp hmatch
              have hstep2 : removeField store i fn m path = (s1, none) := hstep
              have hstep3 : remove_file_from_database store i fn path = (s1, none) := by
                unfold removeField at hstep2
                rw [hg] at hstep2
                exact hstep2
              have h3 := remove_kills store i fn path t2
              rw [hstep3] at h3
              exact h3 ht2
            exact kills_of_shrink i fn path
              (foldE_rel ShrinkStore shrink_refl (fun h1 h2 => shrink_trans h1 h2)
                (fun s fm => removeField s i fm.1 fm.2 path) fl
                (fun b fm => shrink_removeField b i fm.1 fm.2 path) s1)
              hkill t' ht' r hr
          · exact ih s1 he herr2 t' ht' r hr
  exact main (regex_field_patterns p) store hm herr

theorem removeProducer_kills (store : Store) (i : Nat) (p : Producer) (files : List String)
    (fn : String) (m : Matcher) (hm : (fn, m) ∈ regex_field_patterns p)
    (path : String) (hpath : path ∈ files) (hmatch : (m path).isSome)
    (herr : (removeProducer store i p files).2 = none) :
    ∀ t', (removeProducer store i p files).1.lookup (i, fn) = some t' →
      ∀ r ∈ t', r.filename ≠ path := by
  unfold removeProducer at herr ⊢
  have main : ∀ (flist : List String) (store : Store), path ∈ flist →
      (foldE (fun s q => removePath s i p q) store flist).2 = none →
      ∀ t', (foldE (fun s q => removePath s i p q) store flist).1.lookup (i, fn)
          = some t' → ∀ r ∈ t', r.filename ≠ path := by
    intro flist
    induction flist with
    | nil => intro store hmem; exact absurd hmem (by simp)
    | cons f0 fl ih =>
      intro store hmem herr2 t' ht' r hr
      rw [foldE] at herr2 ht'
      cases hstep : removePath store i p f0 with
      | mk s1 e =>
        rw [hstep] at herr2 ht'
        cases e with
        | some e0 => exact absurd herr2 (by simp)
        | none =>
          by_cases he : f0 = path
          · subst he
            have hkill : ∀ t2, s1.lookup (i, fn) = some t2 →
                ∀ r2 ∈ t2, r2.filename ≠ f0 := by
              intro t2 ht2
              have h3 := removePath_kills store i p f0 fn m hm hmatch
                (by rw [hstep]) t2
              rw [hstep] at h3
              exact h3 ht2
            exact kills_of_shrink i fn f0
              (foldE_rel ShrinkStore shrink_refl (fun h1 h2 => shrink_trans h1 h2)
                (fun s q => removePath s i p q) fl
                (fun b q => shrink_removePath b i p q) s1)
              hkill t' ht' r hr
          · have hmem2 : path ∈ fl := by
              rcases List.mem_cons.mp hmem with h | h
              · exact absurd h.symm he
              · exact h
            exact ih s1 hmem2 herr2 t' ht' r hr
  exact main files store hpath herr

theorem remove_noerr (ps : List Producer) (store : Store) (i : Nat) (p : Producer)
    (filename : String) (fm : String × Matcher) (h : StoreInv ps store)
    (hp : ps.get? i = some p) (hm : fm ∈ regex_field_patterns p) :
    (remove_file_from_database store i fm.1 filename).2 = none := by
  obtain ⟨t, ht⟩ := h.complete i p hp fm hm
  unfold remove_file_from_database
  rw [ht]

theorem removeField_noerr (ps : List Producer) (store : Store) (i : Nat) (p : Producer)
    (path : String) (fm : String × Matcher) (h : StoreInv ps store)
    (hp : ps.get? i = some p) (hm : fm ∈ regex_field_patterns p) :
    (removeField store i fm.1 fm.2 path).2 = none := by
  unfold removeField
  cases hg : fm.2 path with
  | none => rfl
  | some g => exact remove_noerr ps store i p path fm h hp hm

theorem removePath_noerr (ps : List Producer) (store : Store) (i : Nat) (p : Producer)
    (path : String) (h : StoreInv ps store) (hp : ps.get? i = some p) :
    (removePath store i p path).2 = none ∧ StoreInv ps (removePath store i p path).1 := by
  unfold removePath
  exact foldE_noerr (StoreInv ps) (fun s fm => removeField s i fm.1 fm.2 path)
    (regex_field_patterns p)
    (fun b fm hfm hb => ⟨removeField_noerr ps b i p path fm hb hp hfm,
      storeInv_removeField ps b i fm.1 fm.2 path hb⟩) store h

theorem removeProducer_noerr (ps : List Producer) (store : Store) (i : Nat) (p : Producer)
    (files : List String) (h : StoreInv ps store) (hp : ps.get? i = some p) :
    (removeProducer store i p files).2 = none ∧
      StoreInv ps (removeProducer store i p files).1 := by
  unfold removeProducer
  exact foldE_noerr (StoreInv ps) (fun s q => removePath s i p q) files
    (fun b q _ hb => ⟨(removePath_noerr ps b i p q hb hp).1,
      storeInv_removePath ps b i p q hb⟩) store h

theorem removeAll_noerr (ps : List Producer) (store : Store) (files : List String)
    (h : StoreInv ps store) :
    (foldE (fun s ip => removeProducer s ip.1 ip.2 files) store ps.enum).2 = none ∧
      StoreInv ps (foldE (fun s ip => removeProducer s ip.1 ip.2 files) store ps.enum).1 :=
  foldE_noerr (StoreInv ps) (fun s ip => removeProducer s ip.1 ip.2 files) ps.enum
    (fun b ip hip hb => ⟨(removeProducer_noerr ps b ip.1 ip.2 files hb (mem_enum_get hip)).1,
      storeInv_removeProducer ps b ip.1 ip.2 files hb⟩) store h

set_option maxHeartbeats 1000000 in
theorem removeAll_kills (ps : List Producer) (store : Store) (files : List String)
    (path : String) (hpath : path ∈ files)
    (i : Nat) (p : Producer) (fn : String) (m : Matcher)
    (hp : ps.get? i = some p) (hm : (fn, m) ∈ regex_field_patterns p)
    (hmatch : (m path).isSome) (hinv : StoreInv ps store) :
    ∀ t', (foldE (fun s ip => removeProducer s ip.1 ip.2 files) store ps.enum).1.lookup
        (i, fn) = some t' → ∀ r ∈ t', r.filename ≠ path := by
  have main : ∀ (es : List (Nat × Producer)), (∀ e ∈ es, ps.get? e.1 = some e.2) →
      (i, p) ∈ es → ∀ (store : Store), StoreInv ps store →
      ∀ t', (foldE (fun s ip => removeProducer s ip.1 ip.2 files) store es).1.lookup
          (i, fn) = some t' → ∀ r ∈ t', r.filename ≠ path := by
    intro es
    induction es with
    | nil => intro _ hmem; exact absurd hmem (by simp)
    | cons e0 es ih =>
      intro hes hmem store hsinv t' ht' r hr
      rw [foldE] at ht'
      cases hstep : removeProducer store e0.1 e0.2 files with
      | mk s1 e =>
        have hne := removeProducer_noerr ps store e0.1 e0.2 files hsinv
          (hes e0 (List.mem_cons_self e0 es))
        rw [hstep] at hne ht'
        obtain ⟨hne1, hne2⟩ := hne
        subst hne1
        rcases List.mem_cons.mp hmem with he | he
        · subst he
          have hstep2 : removeProducer store i p files = (s1, none) := hstep
          have hkill : ∀ t2, s1.lookup (i, fn) = some t2 →
              ∀ r2 ∈ t2, r2.filename ≠ path := by
            intro t2 ht2
            have h3 := removeProducer_kills store i p files fn m hm path hpath hmatch
              (by rw [hstep2]) t2
            rw [hstep2] at h3
            exact h3 ht2
          exact kills_of_shrink i fn path
            (foldE_rel ShrinkStore shrink_refl (fun h1 h2 => shrink_trans h1 h2)
              (fun s ip => removeProducer s ip.1 ip.2 files) es
              (fun b ip => shrink_removeProducer b ip.1 ip.2 files) s1)
            hkill t' ht' r hr
        · exact ih (fun e2 he2 => hes e2 (List.mem_cons_of_mem e0 he2)) he s1 hne2 t' ht' r hr
  exact main ps.enum (fun e he => mem_enum_get he) (get_mem_enum hp) store hinv

/-- **C7.** After `delete_files files` returns from a consistent state, the
call reports no error; every creator still stored in `creator_list` was
already stored before the call — so the call materializes no new creator —
and has no file of `files` among its flattened input paths; and no table of
the match store retains a row whose `filename` is one of `files`. -/
theorem delete_files_spec (ps : List Producer) (st : SchedState) (store : Store)
    (files : List String) (h1 : SchedInv st) (h2 : StoreInv ps store) :
    (delete_files ps st store files).2 = none ∧
    (∀ k c, (delete_files ps st store files).1.1.creator_list.lookup k = some c →
      st.creator_list.lookup k = some c ∧ ∀ f ∈ files, f ∉ c.flat_input_paths) ∧
    (∀ i fn t, (delete_files ps st store files).1.2.lookup (i, fn) = some t →
      ∀ r ∈ t, r.filename ∉ files) := by
  obtain ⟨hd1, hd2⟩ := delete_creators_with_input_files_spec st files h1
  unfold delete_files
  cases hD : delete_creators_with_input_files st files with
  | mk s1 e1 =>
    rw [hD] at hd1 hd2
    have he1 : e1 = none := hd1
    subst he1
    cases hR : foldE (fun s ip => removeProducer s ip.1 ip.2 files) store ps.enum with
    | mk st2 e2 =>
      have hall := removeAll_noerr ps store files h2
      rw [hR] at hall
      have he2 : e2 = none := hall.1
      subst he2
      refine ⟨rfl, ?_, ?_⟩
      · intro k c hkc
        have hkc2 : s1.creator_list.lookup k = some c := hkc
        have hif := hd2 k
        by_cases hk : k ∈ creatorsToDelete st files
        · rw [if_pos hk] at hif
          rw [hif] at hkc2
          exact absurd hkc2 (by simp)
        · rw [if_neg hk] at hif
          rw [hif] at hkc2
          refine ⟨hkc2, ?_⟩
          intro f hf hfin
          obtain ⟨s, hs, hks⟩ := h1.in_complete k c hkc2 f hfin
          exact hk (creatorsToDelete_covers st files f hf s hs k hks)
      · intro i fn t ht r hr hrf
        have ht2 : st2.lookup (i, fn) = some t := ht
        have hSI : StoreInv ps st2 := hall.2
        obtain ⟨p, hp, m, hm⟩ := hSI.keys i fn t ht2
        have hmatch : (m r.filename).isSome := hSI.rows i fn t ht2 r hr p m hp hm
        refine removeAll_kills ps store files r.filename hrf i p fn m hp hm hmatch h2 t
          ?_ r hr rfl
        rw [hR]
        exact ht2

theorem delete_files_spec_witness :
    (delete_files [wProducer] emptySched (init_producer_cache [wProducer]) ["a"]).2
        = none ∧
    (∀ k c, (delete_files [wProducer] emptySched (init_producer_cache [wProducer])
        ["a"]).1.1.creator_list.lookup k = some c →
      emptySched.creator_list.lookup k = some c ∧
        ∀ f ∈ ["a"], f ∉ c.flat_input_paths) ∧
    (∀ i fn t, (delete_files [wProducer] emptySched (init_producer_cache [wProducer])
        ["a"]).1.2.lookup (i, fn) = some t → ∀ r ∈ t, r.filename ∉ ["a"]) :=
  delete_files_spec [wProducer] emptySched (init_producer_cache [wProducer]) ["a"]
    schedInv_empty (storeInv_init [wProducer])

theorem markStep_pres (j : Nat) (s2 : Store) (fm : String × Matcher) (i : Nat) (fn : String)
    (h : ∀ t, s2.lookup (i, fn) = some t → ∀ r ∈ t, r.is_updated = 0) :
    ∀ t, (match s2.lookup (j, fm.1) with
          | none => s2
          | some t0 => s2.insert (j, fm.1)
              (t0.map (fun r : Row => { r with is_updated := 0 }))).lookup (i, fn) = some t →
      ∀ r ∈ t, r.is_updated = 0 := by
  cases hl : s2.lookup (j, fm.1) with
  | none => exact h
  | some t0 =>
    intro t ht r hr
    by_cases hk : ((i, fn) : Nat × String) = (j, fm.1)
    · rw [hk, Finmap.lookup_insert] at ht
      injection ht with ht
      subst ht
      obtain ⟨r0, _, hr0⟩ := List.mem_map.mp hr
      rw [← hr0]
    · rw [Finmap.lookup_insert_of_ne _ hk] at ht
      exact h t ht r hr

theorem markStep_estab (j : Nat) (s2 : Store) (fm : String × Matcher) :
    ∀ t, (match s2.lookup (j, fm.1) with
          | none => s2
          | some t0 => s2.insert (j, fm.1)
              (t0.map (fun r : Row => { r with is_updated := 0 }))).lookup (j, fm.1) = some t →
      ∀ r ∈ t, r.is_updated = 0 := by
  cases hl : s2.lookup (j, fm.1) with
  | none =>
    intro t ht
    rw [hl] at ht
    exact absurd ht (by simp)
  | some t0 =>
    intro t ht
    rw [Finmap.lookup_insert] at ht
    injection ht with ht
    subst ht
    intro r hr
    obtain ⟨r0, _, hr0⟩ := List.mem_map.mp hr
    rw [← hr0]

theorem markStep_none (j : Nat) (s2 : Store) (fm : String × Matcher) (i : Nat) (fn : String)
    (h : s2.lookup (i, fn) = none) :
    (match s2.lookup (j, fm.1) with
     | none => s2
     | some t0 => s2.insert (j, fm.1)
        (t0.map (fun r : Row => { r with is_updated := 0 }))).lookup (i, fn) = none := by
  cases hl : s2.lookup (j, fm.1) with
  | none => exact h
  | some t0 =>
    by_cases hk : ((i, fn) : Nat × String) = (j, fm.1)
    · rw [← hk] at hl
      rw [h] at hl
      exact absurd hl (by simp)
    · rw [Finmap.lookup_insert_of_ne _ hk]
      exact h

theorem markInner_pres (j : Nat) (fl : List (String × Matcher)) (i : Nat) (fn : String) :
    ∀ (s : Store), (∀ t, s.lookup (i, fn) = some t → ∀ r ∈ t, r.is_updated = 0) →
      ∀ t, (fl.foldl (fun s2 fm => match s2.lookup (j, fm.1) with
          | none => s2
          | some t0 => s2.insert (j, fm.1)
              (t0.map (fun r : Row => { r with is_updated := 0 }))) s).lookup (i, fn) = some t →
        ∀ r ∈ t, r.is_updated = 0 := by
  induction fl with
  | nil => intro s h; exact h
  | cons fm fl ih =>
    intro s h
    rw [List.foldl_cons]
    exact ih _ (markStep_pres j s fm i fn h)

theorem markInner_none (j : Nat) (fl : List (String × Matcher)) (i : Nat) (fn : String) :
    ∀ (s : Store), s.lookup (i, fn) = none →
      (fl.foldl (fun s2 fm => match s2.lookup (j, fm.1) with
          | none => s2
          | some t0 => s2.insert (j, fm.1)
              (t0.map (fun r : Row => { r with is_updated := 0 }))) s).lookup (i, fn) = none := by
  induction fl with
  | nil => intro s h; exact h
  | cons fm fl ih =>
    intro s h
    rw [List.foldl_cons]
    exact ih _ (markStep_none j s fm i fn h)

theorem markInner_estab (j : Nat) (fn : String) :
    ∀ (fl : List (String × Matcher)), fn ∈ fl.map Prod.fst →
    ∀ (s : Store) (t : List Row),
      (fl.foldl (fun s2 fm => match s2.lookup (j, fm.1) with
          | none => s2
          | some t0 => s2.insert (j, fm.1)
              (t0.map (fun r : Row => { r with is_updated := 0 }))) s).lookup (j, fn) = some t →
      ∀ r ∈ t, r.is_updated = 0 := by
  intro fl
  induction fl with
  | nil => intro hmem; exact absurd hmem (by simp)
  | cons fm fl ih =>
    intro hmem s t
    rw [List.foldl_cons]
    by_cases he : fn = fm.1
    · subst he
      exact markInner_pres j fl j fm.1 _ (markStep_estab j s fm) t
    · rw [List.map_cons] at hmem
      rcases List.mem_cons.mp hmem with h | h
      · exact absurd h he
      · exact ih h _ t

theorem markOuter_pres (i : Nat) (fn : String) :
    ∀ (es : List (Nat × Producer)) (s : Store),
      (∀ t, s.lookup (i, fn) = some t → ∀ r ∈ t, r.is_updated = 0) →
      ∀ t, (es.foldl (fun s ip =>
          (regex_field_patterns ip.2).foldl (fun s2 fm =>
            match s2.lookup (ip.1, fm.1) with
            | none => s2
            | some t0 => s2.insert (ip.1, fm.1)
                (t0.map (fun r : Row => { r with is_updated := 0 }))) s) s).lookup (i, fn)
        = some t → ∀ r ∈ t, r.is_updated = 0 := by
  intro es
  induction es with
  | nil => intro s h; exact h
  | cons e0 es ih =>
    intro s h
    rw [List.foldl_cons]
    exact ih _ (markInner_pres e0.1 (regex_field_patterns e0.2) i fn s h)

theorem markOuter_none (i : Nat) (fn : String) :
    ∀ (es : List (Nat × Producer)) (s : Store), s.lookup (i, fn) = none →
      (es.foldl (fun s ip =>
          (regex_field_patterns ip.2).foldl (fun s2 fm =>
            match s2.lookup (ip.1, fm.1) with
            | none => s2
            | some t0 => s2.insert (ip.1, fm.1)
                (t0.map (fun r : Row => { r with is_updated := 0 }))) s) s).lookup (i, fn)
        = none := by
  intro es
  induction es with
  | nil => intro s h; exact h
  | cons e0 es ih =>
    intro s h
    rw [List.foldl_cons]
    exact ih _ (markInner_none e0.1 (regex_field_patterns e0.2) i fn s h)

theorem markOuter_estab (i : Nat) (p : Producer) (fn : String)
    (hfn : fn ∈ (regex_field_patterns p).map Prod.fst) :
    ∀ (es : List (Nat × Producer)), (i, p) ∈ es → ∀ (s : Store) (t : List Row),
      (es.foldl (fun s ip =>
          (regex_field_patterns ip.2).foldl (fun s2 fm =>
            match s2.lookup (ip.1, fm.1) with
            | none => s2
            | some t0 => s2.insert (ip.1, fm.1)
                (t0.map (fun r : Row => { r with is_updated := 0 }))) s) s).lookup (i, fn)
        = some t → ∀ r ∈ t, r.is_updated = 0 := by
  intro es
  induction es with
  | nil => intro hmem; exact absurd hmem (by simp)
  | cons e0 es ih =>
    intro hmem s t
    rw [List.foldl_cons]
    rcases List.mem_cons.mp hmem with he | he
    · subst he
      exact markOuter_pres i fn es _
        (markInner_estab i fn (regex_field_patterns p) hfn s) t
    · exact ih he _ t

theorem mark_all_files_old_zero (ps : List Producer) (store : Store)
    (h2 : StoreInv ps store) :
    ∀ i fn t, (mark_all_files_old ps store).lookup (i, fn) = some t →
      ∀ r ∈ t, r.is_updated = 0 := by
  intro i fn t ht
  unfold mark_all_files_old at ht
  cases hl : store.lookup (i, fn) with
  | none =>
    have hn := markOuter_none i fn ps.enum store hl
    rw [hn] at ht
    exact absurd ht (by simp)
  | some t0 =>
    obtain ⟨p, hp, m, hm⟩ := h2.keys i fn t0 hl
    have hfn : fn ∈ (regex_field_patterns p).map Prod.fst :=
      List.mem_map.mpr ⟨(fn, m), hm, rfl⟩
    exact markOuter_estab i p fn hfn ps.enum (get_mem_enum hp) store t ht

/-- **C6.** The `is_updated` life cycle: a successful
`insert_new_file_querystring` INSERT appends exactly the row
`(filename, is_updated = 1, groups)` to its field table; after a
successful `build_new_creators` pass every `is_updated` flag of every
field table is 0; and `query_filesets` yields the fileset of a joined
GROUP BY key exactly when the SUM of `is_updated` over the key's
constituent rows is strictly positive. -/
theorem is_updated_lifecycle (ps : List Producer) (sched : SchedState)
    (store store0 : Store) (files : List String) (i0 : Nat) (fn filename : String)
    (groups : List (String × String)) (p : Producer) (i : Nat)
    (elem : List (String × FieldVal) × List (String × String))
    (hwf : ∀ q ∈ ps, ProducerWF q) (h2 : StoreInv ps store)
    (hins : (insert_new_file store0 i0 fn filename groups).2 = none)
    (hbe : (build_new_creators ps sched store files).2 = none) :
    (∃ t, store0.lookup (i0, fn) = some t ∧
      (insert_new_file store0 i0 fn filename groups).1.lookup (i0, fn)
        = some (t ++ [⟨filename, 1, groups⟩])) ∧
    (∀ j gn t, (build_new_creators ps sched store files).1.2.lookup (j, gn) = some t →
      ∀ r ∈ t, r.is_updated = 0) ∧
    (elem ∈ query_filesets p i store ↔
      ∃ key, key ∈ (joinTuples p i store).map (tupleKey (activeFields p)) ∧
        sumUpdated (classOf p i store key) > 0 ∧
        elem = (buildElement p (activeFields p) (classOf p i store key), key.2)) := by
  refine ⟨?_, ?_, ?_⟩
  · unfold insert_new_file at hins ⊢
    cases hl : store0.lookup (i0, fn) with
    | none =>
      rw [hl] at hins
      exact absurd hins (by simp)
    | some t =>
      rw [hl] at hins
      refine ⟨t, rfl, ?_⟩
      have hins2 : (if (t.any fun r => r.filename == filename) = true
          then (store0, some SchedErr.integrityError)
          else (store0.insert (i0, fn) (t ++ [⟨filename, 1, groups⟩]), none)).2
            = none := hins
      by_cases hdup : (t.any fun r => r.filename == filename) = true
      · rw [if_pos hdup] at hins2
        exact absurd hins2 (by simp)
      · show (if (t.any fun r => r.filename == filename) = true
            then (store0, some SchedErr.integrityError)
            else (store0.insert (i0, fn) (t ++ [⟨filename, 1, groups⟩]), none)).1.lookup
              (i0, fn) = some (t ++ [⟨filename, 1, groups⟩])
        rw [if_neg hdup]
        simp [Finmap.lookup_insert]
  · intro j gn t ht
    cases hD : delete_creators_with_input_files sched files with
    | mk s1 e1 =>
      cases e1 with
      | some e =>
        have hx : (build_new_creators ps sched store files).2 = some e := by
          unfold build_new_creators
          rw [hD]
        rw [hx] at hbe
        exact absurd hbe (by simp)
      | none =>
        cases hI : foldE (fun s ip => ingestProducer s ip.1 ip.2 files) store ps.enum with
        | mk st2 e2 =>
          have hst2 : StoreInv ps st2 := by
            have := foldE_inv (StoreInv ps) (fun s ip => ingestProducer s ip.1 ip.2 files)
              ps.enum (fun b ip hip hb => storeInv_ingestProducer ps b ip.1 ip.2 files
                (mem_enum_get hip) (hwf ip.2 (List.get?_mem (mem_enum_get hip))) hb)
              store h2
            rw [hI] at this
            exact this
          cases e2 with
          | some e =>
            have hx : (build_new_creators ps sched store files).2 = some e := by
              unfold build_new_creators
              rw [hD]
              show (match foldE (fun (s : Store) (ip : Nat × Producer) => ingestProducer s ip.1 ip.2 files) store
                  ps.enum with
                | (st2, some e) => ((s1, st2), some e)
                | (st2, none) =>
                  match foldE (fun (sch : SchedState) (ip : Nat × Producer) => materializeProducer sch st2 ip.1 ip.2) s1
                      ps.enum with
                  | (s3, some e) => ((s3, st2), some e)
                  | (s3, none) => ((s3, mark_all_files_old ps st2), none)).2 = some e
              rw [hI]
            rw [hx] at hbe
            exact absurd hbe (by simp)
          | none =>
            cases hM : foldE (fun sch ip => materializeProducer sch st2 ip.1 ip.2) s1
                ps.enum with
            | mk s3 e3 =>
              cases e3 with
              | some e =>
                have hx : (build_new_creators ps sched store files).2 = some e := by
                  unfold build_new_creators
                  rw [hD]
                  show (match foldE (fun (s : Store) (ip : Nat × Producer) => ingestProducer s ip.1 ip.2 files) store
                      ps.enum with
                    | (st2, some e) => ((s1, st2), some e)
                    | (st2, none) =>
                      match foldE (fun (sch : SchedState) (ip : Nat × Producer) => materializeProducer sch st2 ip.1 ip.2) s1
                          ps.enum with
                      | (s3, some e) => ((s3, st2), some e)
                      | (s3, none) => ((s3, mark_all_files_old ps st2), none)).2 = some e
                  rw [hI]
                  show (match foldE (fun (sch : SchedState) (ip : Nat × Producer) => materializeProducer sch st2 ip.1 ip.2)
                      s1 ps.enum with
                    | (s3, some e) => ((s3, st2), some e)
                    | (s3, none) => ((s3, mark_all_files_old ps st2), none)).2 = some e
                  rw [hM]
                rw [hx] at hbe
                exact absurd hbe (by simp)
              | none =>
                have heq : build_new_creators ps sched store files
                    = ((s3, mark_all_files_old ps st2), none) := by
                  unfold build_new_creators
                  rw [hD]
                  show (match foldE (fun (s : Store) (ip : Nat × Producer) => ingestProducer s ip.1 ip.2 files) store
                      ps.enum with
                    | (st2, some e) => ((s1, st2), some e)
                    | (st2, none) =>
                      match foldE (fun (sch : SchedState) (ip : Nat × Producer) => materializeProducer sch st2 ip.1 ip.2) s1
                          ps.enum with
                      | (s3, some e) => ((s3, st2), some e)
                      | (s3, none) => ((s3, mark_all_files_old ps st2), none))
                    = ((s3, mark_all_files_old ps st2), none)
                  rw [hI]
                  show (match foldE (fun (sch : SchedState) (ip : Nat × Producer) => materializeProducer sch st2 ip.1 ip.2)
                      s1 ps.enum with
                    | (s3, some e) => ((s3, st2), some e)
                    | (s3, none) => ((s3, mark_all_files_old ps st2), none))
                    = ((s3, mark_all_files_old ps st2), none)
                  rw [hM]
                rw [heq] at ht
                exact mark_all_files_old_zero ps st2 hst2 j gn t ht
  · constructor
    · intro hmem
      have hm2 : ∃ key ∈ ((joinTuples p i store).map (tupleKey (activeFields p))).dedup,
          (if sumUpdated (classOf p i store key) > 0
            then some (buildElement p (activeFields p) (classOf p i store key), key.2)
            else none) = some elem := List.mem_filterMap.mp hmem
      obtain ⟨key, hk, hf⟩ := hm2
      rw [List.mem_dedup] at hk
      by_cases hs : sumUpdated (classOf p i store key) > 0
      · rw [if_pos hs] at hf
        exact ⟨key, hk, hs, (Option.some.inj hf).symm⟩
      · rw [if_neg hs] at hf
        exact absurd hf (by simp)
    · rintro ⟨key, hk, hs, he⟩
      exact List.mem_filterMap.mpr ⟨key, List.mem_dedup.mpr hk,
        show (if sumUpdated (classOf p i store key) > 0
            then some (buildElement p (activeFields p) (classOf p i store key), key.2)
            else none) = some elem by rw [if_pos hs, he]⟩

theorem is_updated_lifecycle_witness :
    (∃ t, (init_producer_cache [wProducer]).lookup (0, "f") = some t ∧
      (insert_new_file (init_producer_cache [wProducer]) 0 "f" "a" [("k", "a")]).1.lookup
        (0, "f") = some (t ++ [⟨"a", 1, [("k", "a")]⟩])) ∧
    (∀ j gn t, (build_new_creators [wProducer] emptySched (init_producer_cache [wProducer])
        ["a"]).1.2.lookup (j, gn) = some t → ∀ r ∈ t, r.is_updated = 0) ∧
    (([], []) ∈ query_filesets wProducer 0 (init_producer_cache [wProducer]) ↔
      ∃ key, key ∈ (joinTuples wProducer 0 (init_producer_cache [wProducer])).map
          (tupleKey (activeFields wProducer)) ∧
        sumUpdated (classOf wProducer 0 (init_producer_cache [wProducer]) key) > 0 ∧
        ([], []) = (buildElement wProducer (activeFields wProducer)
          (classOf wProducer 0 (init_producer_cache [wProducer]) key), key.2)) :=
  is_updated_lifecycle [wProducer] emptySched (init_producer_cache [wProducer])
    (init_producer_cache [wProducer]) ["a"] 0 "f" "a" [("k", "a")] wProducer 0 ([], [])
    (fun q hq => by
      rcases List.mem_singleton.mp hq with rfl
      exact ⟨by decide, fun e g =>
        show (["a"] : List String).Nodup ∧ (["o/b"] : List String).Nodup from
          ⟨by decide, by decide⟩⟩)
    (storeInv_init [wProducer]) (by decide) (by decide)

/-- **C8.** Every list-pattern field of a fileset yielded by
`query_filesets` resolves to the `sorted` of the `parse_comma_escape`
of the field's GROUP_CONCAT aggregate: the value is sorted, it is a
permutation of the parsed filenames, and it is the only sorted
arrangement of them — the input ordering of list fields is
deterministic. -/
theorem query_filesets_list_field_sorted (p : Producer) (i : Nat) (store : Store)
    (elem : List (String × FieldVal) × List (String × String))
    (hmem : elem ∈ query_filesets p i store)
    (j : Nat) (name : String) (re : Matcher) (gs : List String)
    (hj : p.fields.get? j = some (name, FieldKind.listPat re gs)) :
    ∃ key l, key ∈ (joinTuples p i store).map (tupleKey (activeFields p)) ∧
      elem.1.get? j = some (name, FieldVal.strList l) ∧
      l.Sorted (fun a b => a.toList ≤ b.toList) ∧
      l.Perm (parse_comma_escape (listFieldAggregate (activeFields p)
        (classOf p i store key) name)) ∧
      ∀ l2, l2.Perm l → l2.Sorted (fun a b => a.toList ≤ b.toList) → l2 = l := by
  haveI hTot : IsTotal String (fun a b : String => a.toList ≤ b.toList) :=
    ⟨fun a b => le_total a.toList b.toList⟩
  haveI hTr : IsTrans String (fun a b : String => a.toList ≤ b.toList) :=
    ⟨fun a b c hab hbc => le_trans hab hbc⟩
  haveI hAnti : IsAntisymm String (fun a b : String => a.toList ≤ b.toList) :=
    ⟨fun a b hab hba => String.ext (le_antisymm hab hba)⟩
  have hm2 : ∃ key ∈ ((joinTuples p i store).map (tupleKey (activeFields p))).dedup,
      (if sumUpdated (classOf p i store key) > 0
        then some (buildElement p (activeFields p) (classOf p i store key), key.2)
        else none) = some elem := List.mem_filterMap.mp hmem
  obtain ⟨key, hk, hf⟩ := hm2
  rw [List.mem_dedup] at hk
  by_cases hs : sumUpdated (classOf p i store key) > 0
  case neg =>
    rw [if_neg hs] at hf
    exact absurd hf (by simp)
  rw [if_pos hs] at hf
  have helem : elem = (buildElement p (activeFields p) (classOf p i store key), key.2) :=
    (Option.some.inj hf).symm
  subst helem
  have hsorted : (List.insertionSort (fun a b : String => a.toList ≤ b.toList)
      (parse_comma_escape (listFieldAggregate (activeFields p)
        (classOf p i store key) name))).Sorted (fun a b : String => a.toList ≤ b.toList) :=
    List.sorted_insertionSort _ _
  refine ⟨key, List.insertionSort (fun a b : String => a.toList ≤ b.toList)
    (parse_comma_escape (listFieldAggregate (activeFields p)
      (classOf p i store key) name)), hk, ?_, hsorted,
    List.perm_insertionSort _ _, ?_⟩
  · show (buildElement p (activeFields p) (classOf p i store key)).get? j = _
    unfold buildElement
    rw [List.get?_map, hj]
    rfl
  · intro l2 hperm hsort
    exact List.eq_of_perm_of_sorted hperm hsort hsorted

theorem query_filesets_list_field_sorted_witness :
    ∃ key l, key ∈ (joinTuples wProducerL 0 wStoreL).map (tupleKey (activeFields wProducerL)) ∧
      (([("srcs", FieldVal.strList ["a", "b"])],
        [("mod", "X")]) : List (String × FieldVal) × List (String × String)).1.get? 0
        = some ("srcs", FieldVal.strList l) ∧
      l.Sorted (fun a b => a.toList ≤ b.toList) ∧
      l.Perm (parse_comma_escape (listFieldAggregate (activeFields wProducerL)
        (classOf wProducerL 0 wStoreL key) "srcs")) ∧
      ∀ l2, l2.Perm l → l2.Sorted (fun a b => a.toList ≤ b.toList) → l2 = l :=
  query_filesets_list_field_sorted wProducerL 0 wStoreL
    ([("srcs", FieldVal.strList ["a", "b"])], [("mod", "X")]) (by decide)
    0 "srcs" (fun s => if s = "a" ∨ s = "b" then some [("mod", "X")] else none) ["mod"] rfl

theorem processLoop_runs_mono (ps : List Producer) (mfuel : Nat) :
    ∀ (fuel : Nat) (h : List CreatorKey) (sched : SchedState) (store : Store) (disk : Disk)
      (runs : List CreatorKey) (x : CreatorKey), x ∈ runs →
      x ∈ (processLoop ps mfuel fuel h sched store disk runs).2.1 := by
  intro fuel
  induction fuel with
  | zero =>
    intro h sched store disk runs x hx
    cases h with
    | nil => exact hx
    | cons k rest => exact hx
  | succ fuel ih =>
    intro h sched store disk runs x hx
    cases h with
    | nil => exact hx
    | cons k rest =>
      rw [processLoop]
      cases hl : sched.creator_list.lookup k with
      | none => exact hx
      | some creator =>
        simp only [hl]
        cases hmr : must_run disk mfuel creator.flat_output_paths
            creator.flat_input_paths with
        | none => simp only [hmr]; exact hx
        | some b =>
          cases b with
          | false => exact ih rest sched store disk runs x hx
          | true =>
            cases hb : build_new_creators ps sched store creator.flat_output_paths with
            | mk sb e =>
              simp only [hb]
              cases e with
              | some e0 => exact hx
              | none =>
                cases hbd : build_required_directories disk creator.flat_output_paths with
                | none => simp only [hbd]; exact hx
                | some disk1 =>
                  simp only [hbd]
                  cases hg : ps.get? k.1 with
                  | none => simp only [hg]; exact hx
                  | some p =>
                    simp only [hg]
                    exact ih _ sb.1 sb.2 _ (runs ++ [k]) x (List.mem_append_left _ hx)

/-- **C10.** A creator with an empty flattened output list is never
mtime-skipped: `all_files_exist` is `True` on the empty list,
`get_oldest_modified_time` of the empty list is the default 0, so
whenever the newest input mtime is nonnegative the run/skip check
answers run; consequently such a creator's function is executed (it
lands in the run list) every time its identity is popped, provided the
pass returns without an exception. -/
theorem empty_outputs_always_runs (ps : List Producer) (mfuel : Nat) (disk : Disk)
    (fuel : Nat) (k : CreatorKey) (rest : List CreatorKey) (sched : SchedState)
    (store : Store) (runs : List CreatorKey) (creator : Creator) (n : Rat)
    (hl : sched.creator_list.lookup k = some creator)
    (hout : creator.flat_output_paths = [])
    (hn : get_newest_modified_time disk mfuel creator.flat_input_paths = some n)
    (hn0 : 0 ≤ n)
    (herr : (processLoop ps mfuel (fuel + 1) (k :: rest) sched store disk runs).2.2
      = none) :
    (∀ d : Disk, all_files_exist d [] = true) ∧
    (∀ (d : Disk) (fl : Nat), get_oldest_modified_time d fl [] = some 0) ∧
    (∀ (d : Disk) (fl : Nat) (ins : List String) (m : Rat),
      get_newest_modified_time d fl ins = some m → 0 ≤ m →
      must_run d fl [] ins = some true) ∧
    k ∈ (processLoop ps mfuel (fuel + 1) (k :: rest) sched store disk runs).2.1 := by
  have hold : ∀ (d : Disk) (fl : Nat), get_oldest_modified_time d fl [] = some 0 := by
    intro d fl
    cases fl with
    | zero => rfl
    | succ fl => rfl
  have hrun : ∀ (d : Disk) (fl : Nat) (ins : List String) (m : Rat),
      get_newest_modified_time d fl ins = some m → 0 ≤ m →
      must_run d fl [] ins = some true := by
    intro d fl ins m h2 h20
    unfold must_run
    rw [if_pos (show all_files_exist d [] = true from rfl)]
    rw [hold d fl, h2]
    show some (if (0 : Rat) > m then false else true) = some true
    rw [if_neg (not_lt.mpr h20)]
  refine ⟨fun d => rfl, hold, hrun, ?_⟩
  have hmr : must_run disk mfuel creator.flat_output_paths creator.flat_input_paths
      = some true := by
    rw [hout]
    exact hrun disk mfuel creator.flat_input_paths n hn hn0
  cases hb : build_new_creators ps sched store creator.flat_output_paths with
  | mk sb e =>
    cases e with
    | some e0 =>
      have hx : (processLoop ps mfuel (fuel + 1) (k :: rest) sched store disk runs).2.2
          = some e0 := by
        rw [processLoop]
        simp only [hl, hmr, hb]
      rw [hx] at herr
      exact absurd herr (by simp)
    | none =>
      cases hbd : build_required_directories disk creator.flat_output_paths with
      | none =>
        have hx : (processLoop ps mfuel (fuel + 1) (k :: rest) sched store disk runs).2.2
            = some SchedErr.unmodeled := by
          rw [processLoop]
          simp only [hl, hmr, hb, hbd]
        rw [hx] at herr
        exact absurd herr (by simp)
      | some disk1 =>
        cases hg : ps.get? k.1 with
        | none =>
          have hx : (processLoop ps mfuel (fuel + 1) (k :: rest) sched store disk runs).2.2
              = some SchedErr.keyError := by
            rw [processLoop]
            simp only [hl, hmr, hb, hbd, hg]
          rw [hx] at herr
          exact absurd herr (by simp)
        | some p =>
          have hx : (processLoop ps mfuel (fuel + 1) (k :: rest) sched store disk runs).2.1
              = (processLoop ps mfuel fuel
                  (seedHeap sb.1 rest creator.flat_output_paths) sb.1 sb.2
                  (p.action creator.flat_input_paths creator.flat_output_paths disk1)
                  (runs ++ [k])).2.1 := by
            rw [processLoop]
            simp only [hl, hmr, hb, hbd, hg]
          rw [hx]
          exact processLoop_runs_mono ps mfuel fuel _ sb.1 sb.2 _ (runs ++ [k]) k
            (by simp)

theorem empty_outputs_always_runs_witness :
    (∀ d : Disk, all_files_exist d [] = true) ∧
    (∀ (d : Disk) (fl : Nat), get_oldest_modified_time d fl [] = some 0) ∧
    (∀ (d : Disk) (fl : Nat) (ins : List String) (m : Rat),
      get_newest_modified_time d fl ins = some m → 0 ≤ m →
      must_run d fl [] ins = some true) ∧
    ((0, []) : CreatorKey) ∈ (processLoop [wProducer] 3 (1 + 1) [(0, [])]
      (registerStep emptySched (0, []) ⟨["src/a"], []⟩).1
      (init_producer_cache [wProducer]) witnessDisk []).2.1 :=
  empty_outputs_always_runs [wProducer] 3 witnessDisk 1 (0, []) []
    (registerStep emptySched (0, []) ⟨["src/a"], []⟩).1
    (init_producer_cache [wProducer]) [] ⟨["src/a"], []⟩ 5
    (by decide) rfl (by decide) (by decide) (by decide)

theorem processLoop_all_skip (ps : List Producer) (mfuel : Nat) (disk : Disk) :
    ∀ (fuel : Nat) (h : List CreatorKey) (sched : SchedState) (store : Store)
      (runs : List CreatorKey),
      (∀ k ∈ h, ∃ c, sched.creator_list.lookup k = some c ∧
        must_run disk mfuel c.flat_output_paths c.flat_input_paths = some false) →
      h.length ≤ fuel →
      processLoop ps mfuel fuel h sched store disk runs
        = ((sched, store, disk), runs, none) := by
  intro fuel
  induction fuel with
  | zero =>
    intro h sched store runs hall hlen
    cases h with
    | nil => rfl
    | cons k rest => exact absurd hlen (by simp)
  | succ fuel ih =>
    intro h sched store runs hall hlen
    cases h with
    | nil => rfl
    | cons k rest =>
      rw [processLoop]
      obtain ⟨c, hc, hmr⟩ := hall k (List.mem_cons_self k rest)
      simp only [hc, hmr]
      exact ih rest sched store runs
        (fun k2 hk2 => hall k2 (List.mem_cons_of_mem k hk2))
        (Nat.le_of_succ_le_succ (by simpa using hlen))

/-- **C5 (amended).** The spec's double-call idempotence does not hold
unconditionally (see the counterexample: a creator whose extra input
never becomes a match-store row is deleted by the second call and never
re-materialized, because its rows all carry `is_updated = 0`).  It
holds exactly when the second call's rebuild phase reproduces the state
and every seeded creator is strictly mtime-satisfied: then the call
returns the state, the store and the disk unchanged and runs no
creator's function at all. -/
theorem add_or_update_files_second_call_noop (ps : List Producer) (mfuel pfuel : Nat)
    (sched : SchedState) (store : Store) (disk : Disk) (files : List String)
    (hbuild : build_new_creators ps sched store files = ((sched, store), none))
    (hskip : ∀ k ∈ seedHeap sched [] files, ∃ c, sched.creator_list.lookup k = some c ∧
      must_run disk mfuel c.flat_output_paths c.flat_input_paths = some false)
    (hfuel : (seedHeap sched [] files).length ≤ pfuel) :
    add_or_update_files ps mfuel pfuel sched store disk files
      = ((sched, store, disk), [], none) := by
  unfold add_or_update_files
  rw [hbuild]
  show process_files ps mfuel pfuel sched store disk files = _
  unfold process_files
  exact processLoop_all_skip ps mfuel disk pfuel (seedHeap sched [] files) sched store []
    hskip hfuel

/-- Two producers, a cascade, and an input that never becomes a row:
both `add_or_update_files` calls return without error, yet the creator
registry after the second call differs from the registry after the
first — the claimed idempotence fails. -/
theorem add_or_update_files_twice_cex :
    (add_or_update_files [cexPA, cexPB] 4 4 emptySched (init_producer_cache [cexPA, cexPB])
        cexDisk ["a", "f"]).2.2 = none ∧
    (add_or_update_files [cexPA, cexPB] 4 4
        (add_or_update_files [cexPA, cexPB] 4 4 emptySched
          (init_producer_cache [cexPA, cexPB]) cexDisk ["a", "f"]).1.1
        (add_or_update_files [cexPA, cexPB] 4 4 emptySched
          (init_producer_cache [cexPA, cexPB]) cexDisk ["a", "f"]).1.2.1
        (add_or_update_files [cexPA, cexPB] 4 4 emptySched
          (init_producer_cache [cexPA, cexPB]) cexDisk ["a", "f"]).1.2.2
        ["a", "f"]).2.2 = none ∧
    ¬((add_or_update_files [cexPA, cexPB] 4 4
        (add_or_update_files [cexPA, cexPB] 4 4 emptySched
          (init_producer_cache [cexPA, cexPB]) cexDisk ["a", "f"]).1.1
        (add_or_update_files [cexPA, cexPB] 4 4 emptySched
          (init_producer_cache [cexPA, cexPB]) cexDisk ["a", "f"]).1.2.1
        (add_or_update_files [cexPA, cexPB] 4 4 emptySched
          (init_producer_cache [cexPA, cexPB]) cexDisk ["a", "f"]).1.2.2
        ["a", "f"]).1.1
      = (add_or_update_files [cexPA, cexPB] 4 4 emptySched
          (init_producer_cache [cexPA, cexPB]) cexDisk ["a", "f"]).1.1) := by decide

theorem add_or_update_files_second_call_noop_witness :
    add_or_update_files [wProducer] 3 1 amendSched amendStore amendDisk ["a"]
      = ((amendSched, amendStore, amendDisk), [], none) :=
  add_or_update_files_second_call_noop [wProducer] 3 1 amendSched amendStore amendDisk
    ["a"]
    (by decide)
    (fun k hk => by
      have hseed : seedHeap amendSched [] ["a"] = [((0, [("k", "a")]) : CreatorKey)] := by
        decide
      rw [hseed] at hk
      have hk2 := List.mem_singleton.mp hk
      subst hk2
      exact ⟨⟨["a"], ["o/b"]⟩, by decide, by decide⟩)
    (by decide)
